import Mathlib

/-!
Verification development for the remote sync server (session registry,
storage backends and path sandboxing).

The Go sources embedded here are:
- the path helpers of the standard library (filepath.Clean, Join, Rel, Dir,
  strings.HasPrefix, strings.TrimPrefix, strings.Split) used by the stores,
  modelled segment-wise but extensionally faithful on the call sites;
- store/memStore.go (MemStore);
- store/fileStore.go (FileStore: readyPath, isLocalFile);
- server/handler.go (the current revision, whose logic is the one of
  src/unnamed/part_005: sessions map, userTokens map, verifyUser,
  getSession, addSession with retry-loop token generation) together with
  server/userSession.go and the nonce expiry check.

Go byte strings are modelled as String, times as Int (UnixNano), tokens as
an opaque type with decidable equality (Nat stands for the fixed-length
nonce value), and Go maps as association lists read through lookupA, whose
lookup semantics coincides with map access.
-/

namespace RemoteSync

/-! ## Go string and path primitives -/

/-- strings.HasPrefix: whether p is a prefix of the character sequence of s. -/
def hasPref (s p : String) : Bool :=
  p.toList.isPrefixOf s.toList

/-- strings.TrimPrefix: drop p from the front of s when it is a prefix,
otherwise return s unchanged. -/
def trimPref (s p : String) : String :=
  if hasPref s p then String.mk (s.toList.drop p.toList.length) else s

/-- strings.Split(s, sep)[0]: the characters of s before the first separator. -/
def firstSeg (s : String) : String :=
  String.mk (s.toList.takeWhile (fun c => c ≠ '/'))

/-- Split a character list on the slash separator. Mirrors strings.Split:
the result is never empty and empty segments are kept. -/
def splitSeg : List Char → List (List Char)
  | [] => [[]]
  | c :: cs =>
    if c = '/' then [] :: splitSeg cs
    else
      match splitSeg cs with
      | [] => [[c]]
      | s :: rest => (c :: s) :: rest

/-- Join segments with the slash separator (strings.Join with "/"). -/
def joinSegs : List (List Char) → List Char
  | [] => []
  | [s] => s
  | s :: rest => s ++ '/' :: joinSegs rest

/-- Whether a path begins with the separator. -/
def isRooted (s : String) : Bool := s.toList.head? = some '/'

/-- The segment list of a path string: the slash split without empty and
single-dot elements. For a clean path this is exactly its sequence of path
segments. -/
def pathSegs (s : String) : List (List Char) :=
  (splitSeg s.toList).filter (fun seg => seg ≠ [] && seg ≠ ['.'])

/-- The element loop of filepath.Clean: drop dot segments were already
filtered out; ".." pops the previous output segment unless the output is
empty (keep the ".." when the path is not rooted) or already ends in "..". -/
def cleanLoop (rooted : Bool) : List (List Char) → List (List Char) → List (List Char)
  | acc, [] => acc.reverse
  | acc, seg :: rest =>
    if seg = ['.', '.'] then
      match acc with
      | [] => if rooted then cleanLoop rooted [] rest else cleanLoop rooted [['.', '.']] rest
      | a :: as =>
        if a = ['.', '.'] then cleanLoop rooted (seg :: acc) rest
        else cleanLoop rooted as rest
    else cleanLoop rooted (seg :: acc) rest

/-- The cleaned segment list of a path string: split on slashes, drop empty
and single-dot elements, then resolve "..". -/
def cleanSegsOf (s : String) : List (List Char) :=
  cleanLoop (isRooted s) [] (pathSegs s)

/-- Render a rooted flag and a segment list back into a path string, the
way filepath.Clean assembles its output (the empty relative result is "."). -/
def renderSegs (rooted : Bool) (l : List (List Char)) : String :=
  if rooted then String.mk ('/' :: joinSegs l)
  else if l = [] then "." else String.mk (joinSegs l)

/-- filepath.Clean for slash-separated paths. -/
def goClean (s : String) : String :=
  renderSegs (isRooted s) (cleanSegsOf s)

/-- filepath.Join for two elements: skip a leading empty element, then
clean the slash-joined concatenation. -/
def goJoin (a b : String) : String :=
  if a = "" then (if b = "" then "" else goClean b)
  else goClean (a ++ "/" ++ b)

/-- filepath.Dir: everything up to and including the final slash, cleaned. -/
def goDir (s : String) : String :=
  goClean (String.mk ((s.toList.reverse.dropWhile (fun c => c ≠ '/')).reverse))

/-- The element sequence filepath.Rel traverses for an already clean path:
the slash split, except that the root path contributes a single empty
element. -/
def rawSegs (s : String) : List (List Char) :=
  if s = "/" then [[]] else splitSeg s.toList

/-- Tail of filepath.Rel once the first differing element is reached:
bs and ts are the remaining base and target elements. An unconsumed ".."
base element is an error; an exhausted base (no characters remain) yields
the target remainder; otherwise one ".." per remaining base element is
emitted, followed by the target remainder. -/
def relTail (bs ts : List (List Char)) : Option (List Char) :=
  if bs.head? = some ['.', '.'] then none
  else if bs = [] ∨ bs = [[]] then some (joinSegs ts)
  else
    let dots := joinSegs (bs.map (fun _ => ['.', '.']))
    if ts = [] then some dots else some (dots ++ '/' :: joinSegs ts)

/-- The element comparison loop of filepath.Rel. -/
def relLoop : List (List Char) → List (List Char) → Option (List Char)
  | [], ts => some (joinSegs ts)
  | b :: bs, t :: ts => if b = t then relLoop bs ts else relTail (b :: bs) (t :: ts)
  | bs, [] => relTail bs []

/-- filepath.Rel for slash-separated paths (no volume names): clean both,
equal paths are ".", a rooted/relative mismatch is an error, otherwise
compare element-wise. -/
def goRel (basepath targpath : String) : Option String :=
  let base := goClean basepath
  let targ := goClean targpath
  if targ = base then some "."
  else
    let base1 := if base = "." then "" else base
    if isRooted base1 ≠ isRooted targ then none
    else (relLoop (rawSegs base1) (rawSegs targ)).map String.mk

/-! ## FileStore sandboxing (store/fileStore.go) -/

/-- isLocalFile: the path is local when Rel to the base directory succeeds
and its result does not begin with the two characters "..". -/
def isLocalFile (baseDir path : String) : Bool :=
  match goRel baseDir path with
  | none => false
  | some rel => ! hasPref rel ".."

/-- readyPath: join the requested path onto the base directory and require
the result to be local. -/
def readyPath (baseDir path : String) : Option String :=
  let p := goJoin baseDir path
  if isLocalFile baseDir p then some p else none

/-- A well-formed path segment: nonempty and free of separators. -/
def SegWF (s : List Char) : Prop := s ≠ [] ∧ '/' ∉ s

/-- Segment-level statement that the target lies at or inside the base:
the base segments are a prefix of the target segments and the first target
segment below the base does not begin with two dots. -/
def InsideSegs (bs ts : List (List Char)) : Prop :=
  bs <+: ts ∧
    ∀ s, (ts.drop bs.length).head? = some s → ['.', '.'].isPrefixOf s = false

/-- Shape of a cleaned segment list: parent-directory segments first (none
at all when the path is rooted), then ordinary segments. -/
def NormalSegs (rooted : Bool) (l : List (List Char)) : Prop :=
  ∃ k rest, l = List.replicate k ['.', '.'] ++ rest ∧ ['.', '.'] ∉ rest ∧
    (rooted = true → k = 0)


/-! ## Association lists standing for Go maps -/

/-- Go map read m[k]: the value of the first entry with the given key. -/
def lookupA {κ ν : Type} [DecidableEq κ] : List (κ × ν) → κ → Option ν
  | [], _ => none
  | (k, v) :: rest, key => if k = key then some v else lookupA rest key

/-- Go delete(m, k): remove the entries with the given key. -/
def eraseA {κ ν : Type} [DecidableEq κ] : List (κ × ν) → κ → List (κ × ν)
  | [], _ => []
  | (k, v) :: rest, key =>
    if k = key then eraseA rest key else (k, v) :: eraseA rest key

/-- Go map write m[k] = v. -/
def insertA {κ ν : Type} [DecidableEq κ] (l : List (κ × ν)) (key : κ) (v : ν) :
    List (κ × ν) :=
  (key, v) :: eraseA l key

/-! ## Error kinds -/

/-- The error kinds of the server core. invalidToken is InvalidTokenErr,
invalidCredentials is InvalidCredentialsErr, nonLocalFile is
store.NonLocalFileErr, notFound is os.ErrNotExist. internalFault stands for
the branches the Go code cannot reach (nonce generation failure, or the
nil-pointer dereference on a username-to-token entry whose session is
missing). -/
inductive RsError where
  | invalidToken
  | invalidCredentials
  | nonLocalFile
  | notFound
  | internalFault
deriving DecidableEq, Repr

/-! ## MemStore (store/memStore.go) -/

/-- A file held in memory: its data and last-modification time. -/
structure MemFile where
  data : List Nat
  modified : Int
deriving DecidableEq, Repr

/-- MemStore: the last written path and the path-indexed file map. -/
structure MemStore where
  lastWritePath : String
  store : List (String × MemFile)
deriving DecidableEq, Repr

/-- NewMemStore: empty store, zero-valued last write path. -/
def memStoreEmpty : MemStore := ⟨"", []⟩

/-- MemStore.Read: the data at the path, or a not-found error. -/
def memRead (ms : MemStore) (path : String) : Except RsError (List Nat) :=
  match lookupA ms.store path with
  | none => .error .notFound
  | some f => .ok f.data

/-- MemStore.Write: store the data at the path with the current time and
record the path as the last written one. Never fails. -/
def memWrite (ms : MemStore) (path : String) (data : List Nat) (now : Int) :
    MemStore :=
  ⟨path, insertA ms.store path ⟨data, now⟩⟩

/-- MemStore.GetLastModified. -/
def memGetLastModified (ms : MemStore) (path : String) : Except RsError Int :=
  match lookupA ms.store path with
  | none => .error .notFound
  | some f => .ok f.modified

/-- MemStore.GetLastWrite: last-modified time of the last written path. -/
def memGetLastWrite (ms : MemStore) : Except RsError Int :=
  memGetLastModified ms ms.lastWritePath

/-- Remove duplicates and sort (the map-bucket collection followed by
sort.Strings). -/
def sortDedup (l : List String) : List String :=
  (l.dedup).insertionSort (fun a b => a ≤ b)

/-- The per-file body of MemStore.ReadDir: the directory name contributed by
one stored file path, if any. -/
def readDirEntry (path1 fPath : String) : Option String :=
  let fDir := goDir fPath ++ "/"
  if fDir ≠ "/" ∧ fDir ≠ "./" ∧ hasPref fDir path1 then
    let dir := firstSeg (trimPref fDir (path1 ++ "/"))
    if dir ≠ "" ∧ dir ≠ path1 then some dir else none
  else none

/-- MemStore.ReadDir: clean the non-empty query, bucket the stored paths by
parent-directory prefix, and return the sorted deduplicated names. -/
def memReadDir (ms : MemStore) (path : String) : List String :=
  let path1 := if path = "" then "" else goClean path
  sortDedup (ms.store.filterMap (fun kv => readDirEntry path1 kv.1))

/-! ## FileStore (store/fileStore.go) over a modelled disk -/

/-- FileStore: the sandbox base directory and the last written path. -/
structure FileStore where
  baseDir : String
  lastWritePath : String
deriving DecidableEq, Repr

/-- The disk contents, path-indexed. -/
def FsDisk : Type := List (String × List Nat)

/-- FileStore.Write: ready the path (sandbox check) and write through. -/
def fileWrite (fs : FileStore) (disk : FsDisk) (path : String)
    (data : List Nat) : Except RsError Unit × FsDisk × FileStore :=
  match readyPath fs.baseDir path with
  | none => (.error .nonLocalFile, disk, fs)
  | some full => (.ok (), insertA disk full data, { fs with lastWritePath := full })

/-- FileStore.Read: ready the path and read through. -/
def fileRead (fs : FileStore) (disk : FsDisk) (path : String) :
    Except RsError (List Nat) :=
  match readyPath fs.baseDir path with
  | none => .error .nonLocalFile
  | some full =>
    match lookupA disk full with
    | none => .error .notFound
    | some data => .ok data

/-! ## Session registry (server/handler.go, server/userSession.go) -/

/-- A token is the fixed-length nonce value, opaque here; equality is exact
comparison. -/
abbrev Token := Nat

/-- nonce.Nonce: the token value, generation time and expiry time. -/
structure Nonce where
  value : Token
  genTime : Int
  expiryTime : Int
deriving DecidableEq, Repr

/-- Nonce.IsValid: netTime.Now().Before(ExpiryTime). -/
def nonceIsValid (n : Nonce) (now : Int) : Bool := now < n.expiryTime

/-- userSession: a username, its nonce (token + expiry) and its store. The
Go store pointer is a reference into the handler's store heap. -/
structure UserSession where
  username : String
  nonce : Nonce
  storeRef : Nat
deriving DecidableEq, Repr

/-- handler: TTL, token-to-session map, username-to-token map, credential
map, plus the heap of MemStore objects the session store pointers denote. -/
structure Handler where
  tokenTTL : Int
  sessions : List (Token × UserSession)
  userTokens : List (String × Token)
  userPasswords : List (String × String)
  storeHeap : List (Nat × MemStore)
  nextRef : Nat
deriving DecidableEq, Repr

/-- newHandler on an already converted credential map. -/
def newHandler (tokenTTL : Int) (userPasswords : List (String × String)) :
    Handler :=
  ⟨tokenTTL, [], [], userPasswords, [], 0⟩

/-- Stand-in for the external cryptographic hash of hashPassword
(hash.CMixHash over password then salt). The claims depend only on equality
of hash values, so an injective pairing suffices. -/
def hashPassword (clearTextPassword salt : String) : String :=
  clearTextPassword ++ "#" ++ salt

/-- verifyUser: a username miss and a password-hash mismatch both return
InvalidCredentialsErr; a match returns no error. -/
def verifyUser (h : Handler) (username passwordHash salt : String) :
    Option RsError :=
  match lookupA h.userPasswords username with
  | none => some .invalidCredentials
  | some clearTextPassword =>
    if hashPassword clearTextPassword salt = passwordHash then none
    else some .invalidCredentials

/-- getSession: look the token up; a miss is InvalidTokenErr with the state
unchanged; an expired session is InvalidTokenErr and the entry is removed
from both maps in the same step; a live session is returned unchanged. -/
def getSession (h : Handler) (token : Token) (now : Int) :
    Except RsError UserSession × Handler :=
  match lookupA h.sessions token with
  | none => (.error .invalidToken, h)
  | some us =>
    if nonceIsValid us.nonce now then (.ok us, h)
    else
      (.error .invalidToken,
        { h with
          sessions := eraseA h.sessions token
          userTokens := eraseA h.userTokens us.username })

/-- The token-generation retry loop of addSession: the first candidate that
is not a key of the sessions map. The candidate stream models the
successive nonce.NewNonce draws; the Go loop would keep drawing forever, so
exhausting the finite list modelled here stands for nontermination and
yields none. -/
def findFresh (sessions : List (Token × UserSession)) : List Token → Option Token
  | [] => none
  | c :: cs => if lookupA sessions c = none then some c else findFresh sessions cs

/-- addSession: draw a fresh token; when the user already has a token, move
that session to the new key with only the nonce value replaced and delete
the old key; otherwise create a new session with a fresh MemStore and
expiry now + TTL. Finally point userTokens at the new token. The none
results model the two branches the Go code cannot reach on well-formed
states (endless candidate collisions, and a username-to-token entry whose
session is missing, where the Go code would dereference a nil pointer). -/
def addSession (h : Handler) (username : String) (cands : List Token)
    (now : Int) : Option (UserSession × Handler) :=
  match findFresh h.sessions cands with
  | none => none
  | some token =>
    match lookupA h.userTokens username with
    | some oldToken =>
      match lookupA h.sessions oldToken with
      | none => none
      | some oldSess =>
        let us := { oldSess with nonce := { oldSess.nonce with value := token } }
        some (us,
          { h with
            sessions := insertA (eraseA h.sessions oldToken) token us
            userTokens := insertA h.userTokens username token })
    | none =>
      let us : UserSession := ⟨username, ⟨token, now, now + h.tokenTTL⟩, h.nextRef⟩
      some (us,
        { h with
          sessions := insertA h.sessions token us
          userTokens := insertA h.userTokens username token
          storeHeap := insertA h.storeHeap h.nextRef memStoreEmpty
          nextRef := h.nextRef + 1 })

/-- Login: verify the credentials, then add the session; the response
carries the session's nonce value and expiry time. -/
def loginH (h : Handler) (username passwordHash salt : String)
    (cands : List Token) (now : Int) :
    Except RsError (Token × Int) × Handler :=
  match verifyUser h username passwordHash salt with
  | some e => (.error e, h)
  | none =>
    match addSession h username cands now with
    | none => (.error .internalFault, h)
    | some (us, h2) => (.ok (us.nonce.value, us.nonce.expiryTime), h2)

/-- Fetch the MemStore a session's store pointer denotes. -/
def heapStore (h : Handler) (us : UserSession) : Option MemStore :=
  lookupA h.storeHeap us.storeRef

/-- handler.Read. -/
def readH (h : Handler) (token : Token) (path : String) (now : Int) :
    Except RsError (List Nat) × Handler :=
  match getSession h token now with
  | (.error e, h2) => (.error e, h2)
  | (.ok us, h2) =>
    match heapStore h2 us with
    | none => (.error .internalFault, h2)
    | some ms => (memRead ms path, h2)

/-- handler.Write. -/
def writeH (h : Handler) (token : Token) (path : String) (data : List Nat)
    (now : Int) : Except RsError Unit × Handler :=
  match getSession h token now with
  | (.error e, h2) => (.error e, h2)
  | (.ok us, h2) =>
    match heapStore h2 us with
    | none => (.error .internalFault, h2)
    | some ms =>
      (.ok (),
        { h2 with storeHeap := insertA h2.storeHeap us.storeRef (memWrite ms path data now) })

/-- handler.GetLastModified. -/
def getLastModifiedH (h : Handler) (token : Token) (path : String) (now : Int) :
    Except RsError Int × Handler :=
  match getSession h token now with
  | (.error e, h2) => (.error e, h2)
  | (.ok us, h2) =>
    match heapStore h2 us with
    | none => (.error .internalFault, h2)
    | some ms => (memGetLastModified ms path, h2)

/-- handler.GetLastWrite. -/
def getLastWriteH (h : Handler) (token : Token) (now : Int) :
    Except RsError Int × Handler :=
  match getSession h token now with
  | (.error e, h2) => (.error e, h2)
  | (.ok us, h2) =>
    match heapStore h2 us with
    | none => (.error .internalFault, h2)
    | some ms => (memGetLastWrite ms, h2)

/-- handler.ReadDir. -/
def readDirH (h : Handler) (token : Token) (path : String) (now : Int) :
    Except RsError (List String) × Handler :=
  match getSession h token now with
  | (.error e, h2) => (.error e, h2)
  | (.ok us, h2) =>
    match heapStore h2 us with
    | none => (.error .internalFault, h2)
    | some ms => (.ok (memReadDir ms path), h2)

/-! ## Operation alphabet over the registry -/

/-- The five token-resolving accesses. -/
inductive AccessOp where
  | read (token : Token) (path : String) (now : Int)
  | write (token : Token) (path : String) (data : List Nat) (now : Int)
  | getLastModified (token : Token) (path : String) (now : Int)
  | getLastWrite (token : Token) (now : Int)
  | readDir (token : Token) (path : String) (now : Int)

/-- The token an access presents. -/
def AccessOp.token : AccessOp → Token
  | .read t _ _ => t
  | .write t _ _ _ => t
  | .getLastModified t _ _ => t
  | .getLastWrite t _ => t
  | .readDir t _ _ => t

/-- The time at which an access runs. -/
def AccessOp.now : AccessOp → Int
  | .read _ _ n => n
  | .write _ _ _ n => n
  | .getLastModified _ _ n => n
  | .getLastWrite _ n => n
  | .readDir _ _ n => n

/-- The state after an access. -/
def runAccess (h : Handler) : AccessOp → Handler
  | .read t p n => (readH h t p n).2
  | .write t p d n => (writeH h t p d n).2
  | .getLastModified t p n => (getLastModifiedH h t p n).2
  | .getLastWrite t n => (getLastWriteH h t n).2
  | .readDir t p n => (readDirH h t p n).2

/-- A registry operation: a Login or an access. -/
inductive Op where
  | login (username passwordHash salt : String) (cands : List Token) (now : Int)
  | access (a : AccessOp)

/-- The state after an operation. -/
def runOp (h : Handler) : Op → Handler
  | .login u ph s cs n => (loginH h u ph s cs n).2
  | .access a => runAccess h a

/-- The state after a sequence of operations. -/
def runOps (h : Handler) (ops : List Op) : Handler :=
  ops.foldl runOp h

/-! ## Registry invariants -/

/-- The two-map invariant of the registry: userTokens entries point at
sessions of the same username, and sessions point back. -/
def Inv (h : Handler) : Prop :=
  (∀ u t, lookupA h.userTokens u = some t →
    ∃ s, lookupA h.sessions t = some s ∧ s.username = u) ∧
  (∀ t s, lookupA h.sessions t = some s →
    lookupA h.userTokens s.username = some t)

/-- Heap well-formedness: every session's store pointer denotes a store. -/
def HeapWF (h : Handler) : Prop :=
  ∀ t s, lookupA h.sessions t = some s →
    ∃ ms, lookupA h.storeHeap s.storeRef = some ms

/-- The error component of an access result. -/
def accessErr (h : Handler) : AccessOp → Option RsError
  | .read t p n => match (readH h t p n).1 with | .error e => some e | .ok _ => none
  | .write t p d n => match (writeH h t p d n).1 with | .error e => some e | .ok _ => none
  | .getLastModified t p n =>
    match (getLastModifiedH h t p n).1 with | .error e => some e | .ok _ => none
  | .getLastWrite t n =>
    match (getLastWriteH h t n).1 with | .error e => some e | .ok _ => none
  | .readDir t p n =>
    match (readDirH h t p n).1 with | .error e => some e | .ok _ => none

/-! ## Sample states for witnesses -/

/-- A sample registry state: user u is logged in with token 5, session
expiring at time 10, store reference 0. -/
def sampleHandler : Handler :=
  ⟨100, [(5, ⟨"u", ⟨5, 0, 10⟩, 0⟩)], [("u", 5)], [("u", "pw")],
    [(0, memStoreEmpty)], 1⟩

/-! ## Spec-side derivation of ReadDir, for comparison with memReadDir -/

/-- Each segment of a list rendered with a terminating slash: the character
form of the directory prefix of a path. -/
def slashTerm : List (List Char) → List Char
  | [] => []
  | s :: rest => s ++ '/' :: slashTerm rest

/-- Spec-side derivation of a ReadDir entry from one written path, written
from the specification words: a name is an immediate child directory name
of the query when the query segments are a proper prefix of the written
segments with at least two segments below them (the child directory and at
least the file name under it), and the name is the first segment past the
query. -/
def specDirChild (p w : String) : Option String :=
  if (pathSegs p).isPrefixOf (pathSegs w) ∧
      (pathSegs p).length + 1 < (pathSegs w).length then
    ((pathSegs w).drop (pathSegs p).length).head?.map String.mk
  else none

/-- Spec-side ReadDir: the sorted deduplicated child directory names
derived from the stored paths. -/
def specReadDir (ms : MemStore) (p : String) : List String :=
  sortDedup (ms.store.filterMap (fun kv => specDirChild p kv.1))

/-! ## Map lemmas -/

theorem lookupA_eraseA {κ ν : Type} [DecidableEq κ] (l : List (κ × ν)) (k k2 : κ) :
    lookupA (eraseA l k) k2 = if k = k2 then none else lookupA l k2 := by
  induction l with
  | nil => simp [lookupA, eraseA]
  | cons kv rest ih =>
    obtain ⟨k1, v⟩ := kv
    by_cases h1 : k1 = k
    · subst h1
      by_cases h2 : k1 = k2
      · subst h2
        simp [lookupA, eraseA, ih]
      · simp [lookupA, eraseA, h2, ih]
    · by_cases h2 : k1 = k2
      · subst h2
        have hk : ¬ k = k1 := fun h => h1 h.symm
        simp [lookupA, eraseA, h1, hk]
      · simp [lookupA, eraseA, h1, h2, ih]

theorem lookupA_insertA {κ ν : Type} [DecidableEq κ] (l : List (κ × ν))
    (k : κ) (v : ν) (k2 : κ) :
    lookupA (insertA l k v) k2 = if k = k2 then some v else lookupA l k2 := by
  by_cases h : k = k2
  · subst h
    simp [insertA, lookupA]
  · simp [insertA, lookupA, h, lookupA_eraseA]

theorem lookupA_insertA_self {κ ν : Type} [DecidableEq κ] (l : List (κ × ν))
    (k : κ) (v : ν) : lookupA (insertA l k v) k = some v := by
  simp [lookupA_insertA]

theorem findFresh_some {sessions : List (Token × UserSession)}
    {cands : List Token} {t : Token}
    (h : findFresh sessions cands = some t) :
    lookupA sessions t = none ∧
      ∃ pre post, cands = pre ++ t :: post ∧
        ∀ c ∈ pre, lookupA sessions c ≠ none := by
  induction cands with
  | nil => simp [findFresh] at h
  | cons c cs ih =>
    by_cases hc : lookupA sessions c = none
    · simp [findFresh, hc] at h
      subst h
      exact ⟨hc, [], cs, rfl, by simp⟩
    · simp [findFresh, hc] at h
      obtain ⟨h1, pre, post, h2, h3⟩ := ih h
      refine ⟨h1, c :: pre, post, by simp [h2], ?_⟩
      intro x hx
      rcases List.mem_cons.mp hx with h | h
      · subst h; exact hc
      · exact h3 x h

/-! ## Access-level helper lemmas -/

theorem access_of_getSession_error (h : Handler) (a : AccessOp) (e : RsError)
    (h2 : Handler) (hg : getSession h a.token a.now = (.error e, h2)) :
    accessErr h a = some e ∧ runAccess h a = h2 := by
  cases a with
  | read t p n =>
    simp [AccessOp.token, AccessOp.now] at hg
    simp [accessErr, runAccess, readH, hg]
  | write t p d n =>
    simp [AccessOp.token, AccessOp.now] at hg
    simp [accessErr, runAccess, writeH, hg]
  | getLastModified t p n =>
    simp [AccessOp.token, AccessOp.now] at hg
    simp [accessErr, runAccess, getLastModifiedH, hg]
  | getLastWrite t n =>
    simp [AccessOp.token, AccessOp.now] at hg
    simp [accessErr, runAccess, getLastWriteH, hg]
  | readDir t p n =>
    simp [AccessOp.token, AccessOp.now] at hg
    simp [accessErr, runAccess, readDirH, hg]

theorem access_missing_token (h : Handler) (a : AccessOp)
    (hm : lookupA h.sessions a.token = none) :
    accessErr h a = some .invalidToken ∧ runAccess h a = h := by
  exact access_of_getSession_error h a .invalidToken h (by simp [getSession, hm])

theorem access_live_token (h : Handler) (a : AccessOp) (us : UserSession)
    (hm : lookupA h.sessions a.token = some us)
    (hv : nonceIsValid us.nonce a.now = true) :
    (runAccess h a).sessions = h.sessions ∧
      (runAccess h a).userTokens = h.userTokens := by
  have hg : getSession h a.token a.now = (.ok us, h) := by
    simp [getSession, hm, hv]
  cases a with
  | read t p n =>
    simp [AccessOp.token, AccessOp.now] at hg
    simp only [runAccess, readH, hg]
    cases hs : heapStore h us <;> simp
  | write t p d n =>
    simp [AccessOp.token, AccessOp.now] at hg
    simp only [runAccess, writeH, hg]
    cases hs : heapStore h us <;> simp
  | getLastModified t p n =>
    simp [AccessOp.token, AccessOp.now] at hg
    simp only [runAccess, getLastModifiedH, hg]
    cases hs : heapStore h us <;> simp
  | getLastWrite t n =>
    simp [AccessOp.token, AccessOp.now] at hg
    simp only [runAccess, getLastWriteH, hg]
    cases hs : heapStore h us <;> simp
  | readDir t p n =>
    simp [AccessOp.token, AccessOp.now] at hg
    simp only [runAccess, readDirH, hg]
    cases hs : heapStore h us <;> simp

/-! ## C2 -/

/-- C2: token resolution collapses missing and expired into one error and
reclaims inline. A token that is not a key of the sessions map fails with
the invalid-token error and leaves the registry unchanged; a token whose
session expiry is not after the current time fails with the very same
error and, in the same step, the entry is deleted from both the
token-to-session map and the username-to-token map. Both cases are stated
for the resolver and for all five accesses. -/
theorem c2_resolution_collapses_missing_and_expired (h : Handler) :
    (∀ t now, lookupA h.sessions t = none →
      getSession h t now = (.error .invalidToken, h)) ∧
    (∀ t now us, lookupA h.sessions t = some us → us.nonce.expiryTime ≤ now →
      getSession h t now =
        (.error .invalidToken,
          { h with
            sessions := eraseA h.sessions t
            userTokens := eraseA h.userTokens us.username })) ∧
    (∀ a : AccessOp, lookupA h.sessions a.token = none →
      accessErr h a = some .invalidToken ∧ runAccess h a = h) ∧
    (∀ a : AccessOp, ∀ us, lookupA h.sessions a.token = some us →
      us.nonce.expiryTime ≤ a.now →
      accessErr h a = some .invalidToken ∧
        runAccess h a =
          { h with
            sessions := eraseA h.sessions a.token
            userTokens := eraseA h.userTokens us.username }) := by
  have hexp : ∀ t now us, lookupA h.sessions t = some us →
      us.nonce.expiryTime ≤ now →
      getSession h t now =
        (.error .invalidToken,
          { h with
            sessions := eraseA h.sessions t
            userTokens := eraseA h.userTokens us.username }) := by
    intro t now us hm hle
    have hv : nonceIsValid us.nonce now = false := by
      simp [nonceIsValid, not_lt.mpr hle]
    simp [getSession, hm, hv]
  refine ⟨fun t now hm => by simp [getSession, hm], hexp, ?_, ?_⟩
  · intro a hm
    exact access_missing_token h a hm
  · intro a us hm hle
    exact access_of_getSession_error h a .invalidToken _ (hexp _ _ _ hm hle)

/-- Witness for C2 at the sample state: token 7 is missing, token 5 is
present but expired at time 50. -/
theorem c2_witness :
    getSession sampleHandler 7 50 = (.error .invalidToken, sampleHandler) ∧
      getSession sampleHandler 5 50 =
        (.error .invalidToken,
          { sampleHandler with
            sessions := eraseA sampleHandler.sessions 5
            userTokens := eraseA sampleHandler.userTokens "u" }) :=
  ⟨(c2_resolution_collapses_missing_and_expired sampleHandler).1 7 50 rfl,
    (c2_resolution_collapses_missing_and_expired sampleHandler).2.1 5 50
      ⟨"u", ⟨5, 0, 10⟩, 0⟩ rfl (by decide)⟩

/-! ## C7 -/

/-- C7: credential opacity. A username miss and a password-hash mismatch
for an existing username both yield the single invalid-credentials error,
identical in the two cases, and Login forwards that very error with the
state unchanged. -/
theorem c7_credential_opacity (h : Handler) (u ph salt : String) :
    (lookupA h.userPasswords u = none →
      verifyUser h u ph salt = some .invalidCredentials) ∧
    (∀ pw, lookupA h.userPasswords u = some pw → hashPassword pw salt ≠ ph →
      verifyUser h u ph salt = some .invalidCredentials) ∧
    (∀ cands now e, verifyUser h u ph salt = some e →
      loginH h u ph salt cands now = (.error e, h)) := by
  refine ⟨fun hm => by simp [verifyUser, hm],
    fun pw hm hne => by simp [verifyUser, hm, hne],
    fun cands now e hv => by simp [loginH, hv]⟩

/-- Witness for C7: unknown user v, and known user u with a wrong hash,
produce the identical error. -/
theorem c7_witness :
    verifyUser sampleHandler "v" "x" "s" = some .invalidCredentials ∧
      verifyUser sampleHandler "u" "x" "s" = some .invalidCredentials :=
  ⟨(c7_credential_opacity sampleHandler "v" "x" "s").1 rfl,
    (c7_credential_opacity sampleHandler "u" "x" "s").2.1 "pw" rfl (by decide)⟩

/-! ## C10 -/

/-- C10: frame property of resolution. Resolving a live token through any
of the five accesses leaves both registry maps unchanged, and conversely an
access changes a registry map only when the presented token is present with
an expired session. -/
theorem c10_live_resolution_frame (h : Handler) :
    (∀ a : AccessOp, ∀ us, lookupA h.sessions a.token = some us →
      a.now < us.nonce.expiryTime →
      (runAccess h a).sessions = h.sessions ∧
        (runAccess h a).userTokens = h.userTokens) ∧
    (∀ a : AccessOp,
      (runAccess h a).sessions ≠ h.sessions ∨
        (runAccess h a).userTokens ≠ h.userTokens →
      ∃ us, lookupA h.sessions a.token = some us ∧
        us.nonce.expiryTime ≤ a.now) := by
  constructor
  · intro a us hm hlt
    exact access_live_token h a us hm (by simp [nonceIsValid, hlt])
  · intro a hne
    cases hm : lookupA h.sessions a.token with
    | none =>
      exact absurd (access_missing_token h a hm).2
        (by rcases hne with hne | hne <;> exact fun he => hne (by rw [he]))
    | some us =>
      by_cases hv : a.now < us.nonce.expiryTime
      · obtain ⟨h1, h2⟩ := access_live_token h a us hm (by simp [nonceIsValid, hv])
        rcases hne with hne | hne
        · exact absurd h1 hne
        · exact absurd h2 hne
      · exact ⟨us, rfl, not_lt.mp hv⟩

/-- Witness for C10: reading a live token at the sample state changes no
registry map. -/
theorem c10_witness :
    (runAccess sampleHandler (.read 5 "f" 3)).sessions = sampleHandler.sessions ∧
      (runAccess sampleHandler (.read 5 "f" 3)).userTokens =
        sampleHandler.userTokens :=
  (c10_live_resolution_frame sampleHandler).1 (.read 5 "f" 3)
    ⟨"u", ⟨5, 0, 10⟩, 0⟩ rfl (by decide)

/-! ## C3 -/

/-- C3: Login installs a fresh non-colliding token. When some candidate
nonce is fresh (which the cryptographic generator guarantees), addSession
succeeds on any state satisfying the registry invariant, the chosen token
is the first fresh candidate (all earlier draws collided and were
retried), it was not a key of the sessions map before, and after the call
it is a live key bound to the returned session. -/
theorem c3_login_installs_fresh_token (h : Handler) (u : String)
    (cands : List Token) (now : Int) (t : Token)
    (hInv : Inv h) (hfresh : findFresh h.sessions cands = some t) :
    ∃ us h2, addSession h u cands now = some (us, h2) ∧
      us.nonce.value = t ∧
      lookupA h.sessions t = none ∧
      lookupA h2.sessions t = some us ∧
      (∃ pre post, cands = pre ++ t :: post ∧
        ∀ c ∈ pre, lookupA h.sessions c ≠ none) := by
  obtain ⟨hnone, hsplit⟩ := findFresh_some hfresh
  cases hu : lookupA h.userTokens u with
  | none =>
    have hadd : addSession h u cands now =
        some (⟨u, ⟨t, now, now + h.tokenTTL⟩, h.nextRef⟩,
          { h with
            sessions := insertA h.sessions t ⟨u, ⟨t, now, now + h.tokenTTL⟩, h.nextRef⟩
            userTokens := insertA h.userTokens u t
            storeHeap := insertA h.storeHeap h.nextRef memStoreEmpty
            nextRef := h.nextRef + 1 }) := by
      simp [addSession, hfresh, hu]
    exact ⟨_, _, hadd, rfl, hnone, by simp [lookupA_insertA_self], hsplit⟩
  | some oldToken =>
    obtain ⟨oldSess, holdS, _⟩ := hInv.1 u oldToken hu
    have hadd : addSession h u cands now =
        some ({ oldSess with nonce := { oldSess.nonce with value := t } },
          { h with
            sessions := insertA (eraseA h.sessions oldToken) t
              { oldSess with nonce := { oldSess.nonce with value := t } }
            userTokens := insertA h.userTokens u t }) := by
      simp [addSession, hfresh, hu, holdS]
    exact ⟨_, _, hadd, rfl, hnone, by simp [lookupA_insertA_self], hsplit⟩

/-- The sample state satisfies the two-map invariant. -/
theorem sampleHandler_inv : Inv sampleHandler := by
  refine ⟨?_, ?_⟩
  · intro u t hm
    have huv : "u" = u ∧ (5 : Token) = t := by
      by_cases hu : "u" = u
      · simp [sampleHandler, lookupA, hu] at hm
        exact ⟨hu, hm⟩
      · simp [sampleHandler, lookupA, hu] at hm
    obtain ⟨hu, ht⟩ := huv
    subst hu
    subst ht
    exact ⟨⟨"u", ⟨5, 0, 10⟩, 0⟩, rfl, rfl⟩
  · intro t s hm
    by_cases ht : (5 : Token) = t
    · subst ht
      simp [sampleHandler, lookupA] at hm
      rw [← hm]
      rfl
    · simp [sampleHandler, lookupA, ht] at hm

/-- Witness for C3 at the sample state: candidate 5 collides with the live
token and is retried; candidate 9 is fresh and becomes the live key. -/
theorem c3_witness :
    ∃ us h2, addSession sampleHandler "u" [5, 9] 50 = some (us, h2) ∧
      us.nonce.value = 9 ∧
      lookupA sampleHandler.sessions 9 = none ∧
      lookupA h2.sessions 9 = some us ∧
      (∃ pre post, [5, 9] = pre ++ 9 :: post ∧
        ∀ c ∈ pre, lookupA sampleHandler.sessions c ≠ none) :=
  c3_login_installs_fresh_token sampleHandler "u" [5, 9] 50 9
    sampleHandler_inv (by decide)

/-! ## C4 -/

/-- C4 counterexample: re-login does not extend the expiry. With TTL 100,
user u logs in at time 0 (token 1, expiry 100) and logs in again at time
50 (token 2). The claim requires the second response to carry expiry
50 + 100 = 150 and the retained session to have issuedAt 50; the code
returns the old expiry 100 and keeps issuedAt 0. -/
theorem c4_counterexample :
    (loginH (newHandler 100 [("u", "pw")]) "u" (hashPassword "pw" "s") "s"
        [1] 0).1 = .ok (1, 100) ∧
      (loginH (loginH (newHandler 100 [("u", "pw")]) "u"
          (hashPassword "pw" "s") "s" [1] 0).2 "u"
          (hashPassword "pw" "s2") "s2" [2] 50).1 = .ok (2, 100) ∧
      lookupA (loginH (loginH (newHandler 100 [("u", "pw")]) "u"
          (hashPassword "pw" "s") "s" [1] 0).2 "u"
          (hashPassword "pw" "s2") "s2" [2] 50).2.sessions 2 =
        some ⟨"u", ⟨2, 0, 100⟩, 0⟩ ∧
      (100 : Int) ≠ 50 + 100 ∧ (0 : Int) ≠ 50 := by
  refine ⟨rfl, rfl, rfl, by decide, by decide⟩

/-- C4 amended: a second successful Login for a user with a registered
session replaces only the token value; the retained session keeps its
original issuedAt and expiresAt, and the Login response carries the
retained (old) expiry, not issuance time plus TTL. -/
theorem c4_amended_relogin_keeps_old_expiry (h : Handler)
    (u pw salt ph : String) (cands : List Token) (now : Int)
    (t oldToken : Token) (oldSess : UserSession)
    (hpw : lookupA h.userPasswords u = some pw)
    (hph : hashPassword pw salt = ph)
    (hu : lookupA h.userTokens u = some oldToken)
    (holdS : lookupA h.sessions oldToken = some oldSess)
    (hfresh : findFresh h.sessions cands = some t) :
    ∃ h2, loginH h u ph salt cands now =
        (.ok (t, oldSess.nonce.expiryTime), h2) ∧
      lookupA h2.sessions t =
        some { oldSess with nonce := { oldSess.nonce with value := t } } := by
  have hlog : loginH h u ph salt cands now =
      (.ok (t, oldSess.nonce.expiryTime),
        { h with
          sessions := insertA (eraseA h.sessions oldToken) t
            { oldSess with nonce := { oldSess.nonce with value := t } }
          userTokens := insertA h.userTokens u t }) := by
    simp [loginH, verifyUser, hpw, hph, addSession, hfresh, hu, holdS]
  exact ⟨_, hlog, by simp [lookupA_insertA_self]⟩

/-- Witness for the amended C4 at the sample state: re-login at time 50
with fresh candidate 9 returns the old expiry 10. -/
theorem c4_witness :
    ∃ h2, loginH sampleHandler "u" (hashPassword "pw" "s") "s" [9] 50 =
        (.ok (9, 10), h2) ∧
      lookupA h2.sessions 9 = some ⟨"u", ⟨9, 0, 10⟩, 0⟩ :=
  c4_amended_relogin_keeps_old_expiry sampleHandler "u" "pw" "s"
    (hashPassword "pw" "s") [9] 50 9 5 ⟨"u", ⟨5, 0, 10⟩, 0⟩
    rfl rfl rfl rfl (by decide)

/-! ## C8: invariant preservation -/

theorem inv_erase_pair (h : Handler) (hInv : Inv h) (tk : Token)
    (us : UserSession) (hm : lookupA h.sessions tk = some us) :
    Inv { h with
      sessions := eraseA h.sessions tk
      userTokens := eraseA h.userTokens us.username } := by
  constructor
  · intro u t hu
    simp only [lookupA_eraseA] at hu
    by_cases hc : us.username = u
    · simp [hc] at hu
    · simp only [if_neg hc] at hu
      obtain ⟨s, hs, hsu⟩ := hInv.1 u t hu
      refine ⟨s, ?_, hsu⟩
      simp only [lookupA_eraseA]
      have htk : ¬ tk = t := by
        intro he
        subst he
        rw [hm] at hs
        cases hs
        exact hc hsu
      simp [htk, hs]
  · intro t s hs
    simp only [lookupA_eraseA] at hs
    by_cases htk : tk = t
    · simp [htk] at hs
    · simp only [if_neg htk] at hs
      have hback := hInv.2 t s hs
      simp only [lookupA_eraseA]
      have hne : ¬ us.username = s.username := by
        intro he
        have hus := hInv.2 tk us hm
        rw [he] at hus
        rw [hback] at hus
        cases hus
        exact htk rfl
      simp [hne, hback]

theorem inv_getSession (h : Handler) (t : Token) (now : Int) (hInv : Inv h) :
    Inv (getSession h t now).2 := by
  cases hm : lookupA h.sessions t with
  | none => simpa [getSession, hm] using hInv
  | some us =>
    by_cases hv : nonceIsValid us.nonce now
    · simpa [getSession, hm, hv] using hInv
    · simpa [getSession, hm, hv] using inv_erase_pair h hInv t us hm

theorem inv_addSession (h : Handler) (u : String) (cands : List Token)
    (now : Int) (us : UserSession) (h2 : Handler) (hInv : Inv h)
    (hadd : addSession h u cands now = some (us, h2)) : Inv h2 := by
  cases hfresh : findFresh h.sessions cands with
  | none => simp [addSession, hfresh] at hadd
  | some t =>
    have hnone : lookupA h.sessions t = none := (findFresh_some hfresh).1
    cases hu : lookupA h.userTokens u with
    | none =>
      simp only [addSession, hfresh, hu] at hadd
      cases hadd
      constructor
      · intro u1 t1 hu1
        simp only [lookupA_insertA] at hu1 ⊢
        by_cases hc : u = u1
        · simp only [if_pos hc] at hu1
          cases hu1
          exact ⟨⟨u, ⟨t, now, now + h.tokenTTL⟩, h.nextRef⟩, by simp, hc⟩
        · simp only [if_neg hc] at hu1
          obtain ⟨s, hs, hsu⟩ := hInv.1 u1 t1 hu1
          have ht1 : ¬ t = t1 := by
            intro he
            subst he
            rw [hnone] at hs
            cases hs
          exact ⟨s, by simp [ht1, hs], hsu⟩
      · intro t1 s1 hs1
        simp only [lookupA_insertA] at hs1 ⊢
        by_cases hc : t = t1
        · simp only [if_pos hc] at hs1
          cases hs1
          simp [hc]
        · simp only [if_neg hc] at hs1
          have hback := hInv.2 t1 s1 hs1
          have hne : ¬ u = s1.username := by
            intro he
            rw [← he] at hback
            rw [hu] at hback
            cases hback
          simp [hne, hback]
    | some oldToken =>
      cases holdS : lookupA h.sessions oldToken with
      | none => simp [addSession, hfresh, hu, holdS] at hadd
      | some oldSess =>
        have holdU : oldSess.username = u := by
          obtain ⟨s, hs, hsu⟩ := hInv.1 u oldToken hu
          rw [holdS] at hs
          cases hs
          exact hsu
        simp only [addSession, hfresh, hu, holdS] at hadd
        cases hadd
        constructor
        · intro u1 t1 hu1
          simp only [lookupA_insertA] at hu1 ⊢
          by_cases hc : u = u1
          · simp only [if_pos hc] at hu1
            cases hu1
            exact ⟨{ oldSess with nonce := { oldSess.nonce with value := t } },
              by simp, holdU.trans hc⟩
          · simp only [if_neg hc] at hu1
            obtain ⟨s, hs, hsu⟩ := hInv.1 u1 t1 hu1
            have ht1 : ¬ t = t1 := by
              intro he
              subst he
              rw [hnone] at hs
              cases hs
            have hold1 : ¬ oldToken = t1 := by
              intro he
              subst he
              rw [holdS] at hs
              cases hs
              exact hc (holdU ▸ hsu ▸ rfl)
            refine ⟨s, ?_, hsu⟩
            simp [ht1, lookupA_eraseA, hold1, hs]
        · intro t1 s1 hs1
          simp only [lookupA_insertA] at hs1 ⊢
          by_cases hc : t = t1
          · simp only [if_pos hc] at hs1
            cases hs1
            simp [holdU, hc]
          · simp only [if_neg hc] at hs1
            simp only [lookupA_eraseA] at hs1
            by_cases hold1 : oldToken = t1
            · simp [hold1] at hs1
            · simp only [if_neg hold1] at hs1
              have hback := hInv.2 t1 s1 hs1
              have hne : ¬ u = s1.username := by
                intro he
                rw [← he] at hback
                rw [hu] at hback
                cases hback
                exact hold1 rfl
              simp [hne, hback]

theorem inv_heap_update (h : Handler) (heap : List (Nat × MemStore))
    (hInv : Inv h) : Inv { h with storeHeap := heap } := hInv

/-- An access's final state is the resolver's final state up to the store
heap: the two registry maps come straight from getSession. -/
theorem runAccess_storeHeap_only (h : Handler) (a : AccessOp) :
    ∃ heap, runAccess h a =
      { (getSession h a.token a.now).2 with storeHeap := heap } := by
  cases a with
  | read t p n =>
    rcases he : getSession h t n with ⟨res, h2⟩
    cases res with
    | error e => exact ⟨h2.storeHeap, by simp [runAccess, AccessOp.token, AccessOp.now, readH, he]⟩
    | ok us =>
      cases hs : heapStore h2 us with
      | none => exact ⟨h2.storeHeap, by simp [runAccess, AccessOp.token, AccessOp.now, readH, he, hs]⟩
      | some ms => exact ⟨h2.storeHeap, by simp [runAccess, AccessOp.token, AccessOp.now, readH, he, hs]⟩
  | write t p d n =>
    rcases he : getSession h t n with ⟨res, h2⟩
    cases res with
    | error e => exact ⟨h2.storeHeap, by simp [runAccess, AccessOp.token, AccessOp.now, writeH, he]⟩
    | ok us =>
      cases hs : heapStore h2 us with
      | none => exact ⟨h2.storeHeap, by simp [runAccess, AccessOp.token, AccessOp.now, writeH, he, hs]⟩
      | some ms =>
        exact ⟨insertA h2.storeHeap us.storeRef (memWrite ms p d n),
          by simp [runAccess, AccessOp.token, AccessOp.now, writeH, he, hs]⟩
  | getLastModified t p n =>
    rcases he : getSession h t n with ⟨res, h2⟩
    cases res with
    | error e =>
      exact ⟨h2.storeHeap, by simp [runAccess, AccessOp.token, AccessOp.now, getLastModifiedH, he]⟩
    | ok us =>
      cases hs : heapStore h2 us with
      | none =>
        exact ⟨h2.storeHeap, by simp [runAccess, AccessOp.token, AccessOp.now, getLastModifiedH, he, hs]⟩
      | some ms =>
        exact ⟨h2.storeHeap, by simp [runAccess, AccessOp.token, AccessOp.now, getLastModifiedH, he, hs]⟩
  | getLastWrite t n =>
    rcases he : getSession h t n with ⟨res, h2⟩
    cases res with
    | error e => exact ⟨h2.storeHeap, by simp [runAccess, AccessOp.token, AccessOp.now, getLastWriteH, he]⟩
    | ok us =>
      cases hs : heapStore h2 us with
      | none => exact ⟨h2.storeHeap, by simp [runAccess, AccessOp.token, AccessOp.now, getLastWriteH, he, hs]⟩
      | some ms =>
        exact ⟨h2.storeHeap, by simp [runAccess, AccessOp.token, AccessOp.now, getLastWriteH, he, hs]⟩
  | readDir t p n =>
    rcases he : getSession h t n with ⟨res, h2⟩
    cases res with
    | error e => exact ⟨h2.storeHeap, by simp [runAccess, AccessOp.token, AccessOp.now, readDirH, he]⟩
    | ok us =>
      cases hs : heapStore h2 us with
      | none => exact ⟨h2.storeHeap, by simp [runAccess, AccessOp.token, AccessOp.now, readDirH, he, hs]⟩
      | some ms => exact ⟨h2.storeHeap, by simp [runAccess, AccessOp.token, AccessOp.now, readDirH, he, hs]⟩

theorem inv_runAccess (h : Handler) (a : AccessOp) (hInv : Inv h) :
    Inv (runAccess h a) := by
  obtain ⟨heap, he⟩ := runAccess_storeHeap_only h a
  rw [he]
  exact inv_heap_update _ _ (inv_getSession h a.token a.now hInv)

theorem inv_runOp (h : Handler) (op : Op) (hInv : Inv h) :
    Inv (runOp h op) := by
  cases op with
  | login u ph salt cands now =>
    simp only [runOp, loginH]
    cases hv : verifyUser h u ph salt with
    | some e => exact hInv
    | none =>
      cases hadd : addSession h u cands now with
      | none => exact hInv
      | some r =>
        rcases r with ⟨us, h2⟩
        exact inv_addSession h u cands now us h2 hInv hadd
  | access a => exact inv_runAccess h a hInv

theorem inv_runOps (h : Handler) (ops : List Op) (hInv : Inv h) :
    Inv (runOps h ops) := by
  induction ops generalizing h with
  | nil => exact hInv
  | cons op rest ih => exact ih (runOp h op) (inv_runOp h op hInv)

/-- C8: in every registry state reachable from the empty initial state by
Logins and token-resolving accesses, every username-to-token entry points
at a session with that username, every session points back, and hence each
user has at most one live session. -/
theorem c8_registry_map_invariant (ttl : Int) (ups : List (String × String))
    (ops : List Op) :
    Inv (runOps (newHandler ttl ups) ops) ∧
      (∀ t1 t2 s1 s2,
        lookupA (runOps (newHandler ttl ups) ops).sessions t1 = some s1 →
        lookupA (runOps (newHandler ttl ups) ops).sessions t2 = some s2 →
        s1.username = s2.username → t1 = t2) := by
  have hInv : Inv (runOps (newHandler ttl ups) ops) :=
    inv_runOps _ ops ⟨fun u t hm => by simp [newHandler, lookupA] at hm,
      fun t s hm => by simp [newHandler, lookupA] at hm⟩
  refine ⟨hInv, fun t1 t2 s1 s2 h1 h2 hu => ?_⟩
  have b1 := hInv.2 t1 s1 h1
  have b2 := hInv.2 t2 s2 h2
  rw [hu] at b1
  rw [b2] at b1
  cases b1
  rfl

/-- Witness for C8: a single Login from the empty state yields an
invariant-satisfying state in which the uniqueness consequence is
discharged at the installed token. -/
theorem c8_witness :
    Inv (runOps (newHandler 100 [("u", "pw")])
        [Op.login "u" (hashPassword "pw" "s") "s" [1] 0]) ∧
      (1 : Token) = 1 :=
  ⟨(c8_registry_map_invariant 100 [("u", "pw")]
      [Op.login "u" (hashPassword "pw" "s") "s" [1] 0]).1,
    (c8_registry_map_invariant 100 [("u", "pw")]
      [Op.login "u" (hashPassword "pw" "s") "s" [1] 0]).2 1 1
      ⟨"u", ⟨1, 0, 100⟩, 0⟩ ⟨"u", ⟨1, 0, 100⟩, 0⟩ rfl rfl rfl⟩

/-! ## C1 -/

theorem sessions_absent_getSession (h : Handler) (t : Token) (now : Int)
    (tk : Token) (habs : lookupA h.sessions tk = none) :
    lookupA (getSession h t now).2.sessions tk = none := by
  cases hm : lookupA h.sessions t with
  | none => simpa [getSession, hm] using habs
  | some us =>
    by_cases hv : nonceIsValid us.nonce now
    · simpa [getSession, hm, hv] using habs
    · simp [getSession, hm, hv, lookupA_eraseA, habs]

theorem sessions_absent_runAccess (h : Handler) (a : AccessOp) (tk : Token)
    (habs : lookupA h.sessions tk = none) :
    lookupA (runAccess h a).sessions tk = none := by
  obtain ⟨heap, he⟩ := runAccess_storeHeap_only h a
  rw [he]
  exact sessions_absent_getSession h a.token a.now tk habs

theorem sessions_absent_accessList (h : Handler) (tk : Token)
    (habs : lookupA h.sessions tk = none) (more : List AccessOp) :
    lookupA (runOps h (more.map Op.access)).sessions tk = none := by
  induction more generalizing h with
  | nil => exact habs
  | cons a rest ih =>
    exact ih (runAccess h a) (sessions_absent_runAccess h a tk habs)

/-- C1: re-login preserves the storage handle and invalidates the old
token. From a state where u is not logged in, a first Login installs token
t1; a Write through t1 succeeds; a second Login installs token t2 bound to
a session with the same store reference (the handle, with its accumulated
state, is carried over); a Read through t2 returns the written data; t1 is
no longer a key, and after any further sequence of accesses every access
presented t1 fails with the invalid-token error and leaves the state
unchanged. (A later Login could in principle re-issue the same byte value,
which the cryptographic generator excludes; the continuation is therefore
quantified over accesses.) -/
theorem c1_relogin_preserves_handle (h : Handler) (u pw salt1 salt2 : String)
    (t1 t2 : Token) (p : String) (data : List Nat) (n1 n2 n3 n4 : Int)
    (hpw : lookupA h.userPasswords u = some pw)
    (hu : lookupA h.userTokens u = none)
    (ht1 : lookupA h.sessions t1 = none)
    (ht2 : lookupA h.sessions t2 = none)
    (hne : t1 ≠ t2)
    (hn2 : n2 < n1 + h.tokenTTL)
    (hn4 : n4 < n1 + h.tokenTTL) :
    ∃ (H1 H2 H3 : Handler) (us1 us2 : UserSession),
      loginH h u (hashPassword pw salt1) salt1 [t1] n1 =
        (.ok (t1, n1 + h.tokenTTL), H1) ∧
      lookupA H1.sessions t1 = some us1 ∧
      writeH H1 t1 p data n2 = (.ok (), H2) ∧
      loginH H2 u (hashPassword pw salt2) salt2 [t2] n3 =
        (.ok (t2, n1 + h.tokenTTL), H3) ∧
      lookupA H3.sessions t2 = some us2 ∧
      us2.storeRef = us1.storeRef ∧
      (readH H3 t2 p n4).1 = .ok data ∧
      lookupA H3.sessions t1 = none ∧
      (∀ (more : List AccessOp) (a : AccessOp), a.token = t1 →
        accessErr (runOps H3 (more.map Op.access)) a = some .invalidToken ∧
        runAccess (runOps H3 (more.map Op.access)) a =
          runOps H3 (more.map Op.access)) := by
  refine ⟨{ h with
      sessions := insertA h.sessions t1 ⟨u, ⟨t1, n1, n1 + h.tokenTTL⟩, h.nextRef⟩
      userTokens := insertA h.userTokens u t1
      storeHeap := insertA h.storeHeap h.nextRef memStoreEmpty
      nextRef := h.nextRef + 1 },
    { h with
      sessions := insertA h.sessions t1 ⟨u, ⟨t1, n1, n1 + h.tokenTTL⟩, h.nextRef⟩
      userTokens := insertA h.userTokens u t1
      storeHeap := insertA (insertA h.storeHeap h.nextRef memStoreEmpty)
        h.nextRef ⟨p, [(p, ⟨data, n2⟩)]⟩
      nextRef := h.nextRef + 1 },
    { h with
      sessions := insertA
        (eraseA (insertA h.sessions t1 ⟨u, ⟨t1, n1, n1 + h.tokenTTL⟩, h.nextRef⟩) t1)
        t2 ⟨u, ⟨t2, n1, n1 + h.tokenTTL⟩, h.nextRef⟩
      userTokens := insertA (insertA h.userTokens u t1) u t2
      storeHeap := insertA (insertA h.storeHeap h.nextRef memStoreEmpty)
        h.nextRef ⟨p, [(p, ⟨data, n2⟩)]⟩
      nextRef := h.nextRef + 1 },
    ⟨u, ⟨t1, n1, n1 + h.tokenTTL⟩, h.nextRef⟩,
    ⟨u, ⟨t2, n1, n1 + h.tokenTTL⟩, h.nextRef⟩,
    ?_, ?_, ?_, ?_, ?_, rfl, ?_, ?_, ?_⟩
  · simp [loginH, verifyUser, hpw, addSession, findFresh, ht1, hu]
  · simp [lookupA_insertA_self]
  · have hg : getSession
        { h with
          sessions := insertA h.sessions t1 ⟨u, ⟨t1, n1, n1 + h.tokenTTL⟩, h.nextRef⟩
          userTokens := insertA h.userTokens u t1
          storeHeap := insertA h.storeHeap h.nextRef memStoreEmpty
          nextRef := h.nextRef + 1 } t1 n2 =
        (.ok ⟨u, ⟨t1, n1, n1 + h.tokenTTL⟩, h.nextRef⟩,
          { h with
            sessions := insertA h.sessions t1 ⟨u, ⟨t1, n1, n1 + h.tokenTTL⟩, h.nextRef⟩
            userTokens := insertA h.userTokens u t1
            storeHeap := insertA h.storeHeap h.nextRef memStoreEmpty
            nextRef := h.nextRef + 1 }) := by
      simp [getSession, lookupA_insertA_self, nonceIsValid, hn2]
    have hmw : memWrite memStoreEmpty p data n2 =
        (⟨p, [(p, ⟨data, n2⟩)]⟩ : MemStore) := by
      simp [memWrite, memStoreEmpty, insertA, eraseA]
    simp [writeH, hg, heapStore, lookupA_insertA_self, hmw]
  · have hfresh2 : lookupA
        (insertA h.sessions t1 ⟨u, ⟨t1, n1, n1 + h.tokenTTL⟩, h.nextRef⟩) t2 =
        none := by
      simp [lookupA_insertA, hne, ht2]
    simp [loginH, verifyUser, hpw, addSession, findFresh, hfresh2,
      lookupA_insertA_self]
  · simp [lookupA_insertA_self]
  · have hg : getSession
        { h with
          sessions := insertA
            (eraseA (insertA h.sessions t1 ⟨u, ⟨t1, n1, n1 + h.tokenTTL⟩, h.nextRef⟩) t1)
            t2 ⟨u, ⟨t2, n1, n1 + h.tokenTTL⟩, h.nextRef⟩
          userTokens := insertA (insertA h.userTokens u t1) u t2
          storeHeap := insertA (insertA h.storeHeap h.nextRef memStoreEmpty)
            h.nextRef ⟨p, [(p, ⟨data, n2⟩)]⟩
          nextRef := h.nextRef + 1 } t2 n4 =
        (.ok ⟨u, ⟨t2, n1, n1 + h.tokenTTL⟩, h.nextRef⟩,
          { h with
            sessions := insertA
              (eraseA (insertA h.sessions t1 ⟨u, ⟨t1, n1, n1 + h.tokenTTL⟩, h.nextRef⟩) t1)
              t2 ⟨u, ⟨t2, n1, n1 + h.tokenTTL⟩, h.nextRef⟩
            userTokens := insertA (insertA h.userTokens u t1) u t2
            storeHeap := insertA (insertA h.storeHeap h.nextRef memStoreEmpty)
              h.nextRef ⟨p, [(p, ⟨data, n2⟩)]⟩
            nextRef := h.nextRef + 1 }) := by
      simp [getSession, lookupA_insertA_self, nonceIsValid, hn4]
    simp [readH, hg, heapStore, lookupA_insertA_self, memRead, lookupA]
  · have hne2 : ¬ t2 = t1 := fun he => hne he.symm
    simp [lookupA_insertA, hne2, lookupA_eraseA, ht1]
  · intro more a ha
    have habs : lookupA
        ({ h with
          sessions := insertA
            (eraseA (insertA h.sessions t1 ⟨u, ⟨t1, n1, n1 + h.tokenTTL⟩, h.nextRef⟩) t1)
            t2 ⟨u, ⟨t2, n1, n1 + h.tokenTTL⟩, h.nextRef⟩
          userTokens := insertA (insertA h.userTokens u t1) u t2
          storeHeap := insertA (insertA h.storeHeap h.nextRef memStoreEmpty)
            h.nextRef ⟨p, [(p, ⟨data, n2⟩)]⟩
          nextRef := h.nextRef + 1 } : Handler).sessions t1 = none := by
      have hne2 : ¬ t2 = t1 := fun he => hne he.symm
      simp [lookupA_insertA, hne2, lookupA_eraseA, ht1]
    refine access_missing_token _ a ?_
    rw [ha]
    exact sessions_absent_accessList _ t1 habs more


/-- Witness for C1: concrete two-login scenario with TTL 100. -/
theorem c1_witness :
    ∃ (H1 H2 H3 : Handler) (us1 us2 : UserSession),
      loginH (newHandler 100 [("u", "pw")]) "u" (hashPassword "pw" "s1") "s1"
          [1] 0 = (.ok (1, 0 + (newHandler 100 [("u", "pw")]).tokenTTL), H1) ∧
      lookupA H1.sessions 1 = some us1 ∧
      writeH H1 1 "f" [7] 1 = (.ok (), H2) ∧
      loginH H2 "u" (hashPassword "pw" "s2") "s2" [2] 50 =
        (.ok (2, 0 + (newHandler 100 [("u", "pw")]).tokenTTL), H3) ∧
      lookupA H3.sessions 2 = some us2 ∧
      us2.storeRef = us1.storeRef ∧
      (readH H3 2 "f" 60).1 = .ok [7] ∧
      lookupA H3.sessions 1 = none ∧
      (∀ (more : List AccessOp) (a : AccessOp), a.token = 1 →
        accessErr (runOps H3 (more.map Op.access)) a = some .invalidToken ∧
        runAccess (runOps H3 (more.map Op.access)) a =
          runOps H3 (more.map Op.access)) :=
  c1_relogin_preserves_handle (newHandler 100 [("u", "pw")]) "u" "pw" "s1"
    "s2" 1 2 "f" [7] 0 1 50 60 rfl rfl rfl rfl (by decide) (by decide)
    (by decide)


/-! ## Path segment lemmas -/

theorem splitSeg_ne_nil (cs : List Char) : splitSeg cs ≠ [] := by
  cases cs with
  | nil => simp [splitSeg]
  | cons c cs =>
    by_cases hc : c = '/'
    · simp [splitSeg, hc]
    · simp only [splitSeg, if_neg hc]
      cases splitSeg cs <;> simp

theorem splitSeg_sf (cs : List Char) : ∀ s ∈ splitSeg cs, '/' ∉ s := by
  induction cs with
  | nil =>
    intro s hs
    simp [splitSeg] at hs
    simp [hs]
  | cons c cs ih =>
    intro s hs
    by_cases hc : c = '/'
    · simp only [splitSeg, if_pos hc] at hs
      rcases List.mem_cons.mp hs with h | h
      · simp [h]
      · exact ih s h
    · simp only [splitSeg, if_neg hc] at hs
      cases hsp : splitSeg cs with
      | nil => exact absurd hsp (splitSeg_ne_nil cs)
      | cons s0 rest =>
        rw [hsp] at hs
        rcases List.mem_cons.mp hs with h | h
        · subst h
          intro hmem
          rcases List.mem_cons.mp hmem with h | h
          · exact hc h.symm
          · exact ih s0 (hsp ▸ List.mem_cons_self s0 rest) h
        · exact ih s (hsp ▸ List.mem_cons_of_mem s0 h)

theorem splitSeg_no_slash (s : List Char) (hs : '/' ∉ s) : splitSeg s = [s] := by
  induction s with
  | nil => rfl
  | cons c cs ih =>
    have hc : ¬ c = '/' := fun h => hs (h ▸ List.mem_cons_self c cs)
    have hcs : '/' ∉ cs := fun h => hs (List.mem_cons_of_mem c h)
    simp only [splitSeg, if_neg hc, ih hcs]

theorem splitSeg_append (s x : List Char) (hs : '/' ∉ s) :
    splitSeg (s ++ '/' :: x) = s :: splitSeg x := by
  induction s with
  | nil => simp [splitSeg]
  | cons c cs ih =>
    have hc : ¬ c = '/' := fun h => hs (h ▸ List.mem_cons_self c cs)
    have hcs : '/' ∉ cs := fun h => hs (List.mem_cons_of_mem c h)
    show splitSeg (c :: (cs ++ '/' :: x)) = (c :: cs) :: splitSeg x
    simp only [splitSeg, if_neg hc]
    rw [ih hcs]

theorem splitSeg_joinSegs (l : List (List Char)) (hl : ∀ s ∈ l, '/' ∉ s)
    (hne : l ≠ []) : splitSeg (joinSegs l) = l := by
  induction l with
  | nil => exact absurd rfl hne
  | cons s rest ih =>
    cases rest with
    | nil => exact splitSeg_no_slash s (hl s (List.mem_cons_self s []))
    | cons t rest2 =>
      have hs : '/' ∉ s := hl s (List.mem_cons_self s (t :: rest2))
      have hrest : ∀ u ∈ t :: rest2, '/' ∉ u := fun u hu =>
        hl u (List.mem_cons_of_mem s hu)
      show splitSeg (s ++ '/' :: joinSegs (t :: rest2)) = s :: t :: rest2
      rw [splitSeg_append s _ hs, ih hrest (by simp)]

theorem dotdot_pref_joinSegs (s : List Char) (l : List (List Char))
    (hs : SegWF s) :
    ['.', '.'].isPrefixOf (joinSegs (s :: l)) = ['.', '.'].isPrefixOf s := by
  cases l with
  | nil => rfl
  | cons t rest =>
    show ['.', '.'].isPrefixOf (s ++ '/' :: joinSegs (t :: rest)) = _
    cases s with
    | nil => exact absurd rfl hs.1
    | cons c1 s1 =>
      cases s1 with
      | nil => simp [List.isPrefixOf]
      | cons c2 s2 => simp [List.isPrefixOf]

theorem mem_cleanLoop (P : List Char → Prop) (hdd : P ['.', '.'])
    (rooted : Bool) (l : List (List Char)) :
    ∀ acc, (∀ s ∈ acc, P s) → (∀ s ∈ l, P s) →
      ∀ s ∈ cleanLoop rooted acc l, P s := by
  induction l with
  | nil =>
    intro acc hacc _ s hs
    simp only [cleanLoop] at hs
    exact hacc s (List.mem_reverse.mp hs)
  | cons seg rest ih =>
    intro acc hacc hl s hs
    have hseg : P seg := hl seg (List.mem_cons_self seg rest)
    have hrest : ∀ u ∈ rest, P u := fun u hu => hl u (List.mem_cons_of_mem seg hu)
    by_cases hd : seg = ['.', '.']
    · simp only [cleanLoop, if_pos hd] at hs
      cases acc with
      | nil =>
        cases rooted with
        | false =>
          simp only at hs
          exact ih [['.', '.']] (by simpa) hrest s hs
        | true =>
          simp only at hs
          exact ih [] (by simp) hrest s hs
      | cons a as =>
        by_cases ha : a = ['.', '.']
        · simp only [if_pos ha] at hs
          exact ih (seg :: a :: as) (by
            intro u hu
            rcases List.mem_cons.mp hu with h | h
            · exact h ▸ hseg
            · exact hacc u h) hrest s hs
        · simp only [if_neg ha] at hs
          exact ih as (fun u hu => hacc u (List.mem_cons_of_mem a hu)) hrest s hs
    · simp only [cleanLoop, if_neg hd] at hs
      exact ih (seg :: acc) (by
        intro u hu
        rcases List.mem_cons.mp hu with h | h
        · exact h ▸ hseg
        · exact hacc u h) hrest s hs

theorem pathSegs_wf (s : String) : ∀ t ∈ pathSegs s, SegWF t ∧ t ≠ ['.'] := by
  intro t ht
  simp only [pathSegs, List.mem_filter] at ht
  obtain ⟨hmem, hcond⟩ := ht
  simp only [Bool.and_eq_true, decide_eq_true_eq] at hcond
  exact ⟨⟨by simpa using hcond.1, splitSeg_sf s.toList t hmem⟩, by simpa using hcond.2⟩

theorem cleanSegsOf_wf (s : String) :
    ∀ t ∈ cleanSegsOf s, SegWF t ∧ t ≠ ['.'] := by
  intro t ht
  refine mem_cleanLoop (fun u => SegWF u ∧ u ≠ ['.']) ⟨⟨by simp, by simp⟩, by simp⟩
    (isRooted s) (pathSegs s) [] (by simp) (pathSegs_wf s) t ht

theorem pathSegs_render (rooted : Bool) (l : List (List Char))
    (hl : ∀ t ∈ l, SegWF t ∧ t ≠ ['.']) :
    pathSegs (renderSegs rooted l) = l := by
  have hsf : ∀ t ∈ l, '/' ∉ t := fun t ht => (hl t ht).1.2
  have hfilter : l.filter (fun seg => seg ≠ [] && seg ≠ ['.']) = l := by
    refine List.filter_eq_self.mpr ?_
    intro t ht
    simp only [Bool.and_eq_true, decide_eq_true_eq]
    exact ⟨by simpa using (hl t ht).1.1, by simpa using (hl t ht).2⟩
  cases rooted with
  | true =>
    cases l with
    | nil => simp [renderSegs, pathSegs, splitSeg, joinSegs]
    | cons t rest =>
      rw [show renderSegs true (t :: rest) =
        String.mk ('/' :: joinSegs (t :: rest)) from rfl]
      simp only [pathSegs]
      have h2 : (String.mk ('/' :: joinSegs (t :: rest))).toList =
          '/' :: joinSegs (t :: rest) := rfl
      rw [h2]
      have h3 : splitSeg ('/' :: joinSegs (t :: rest)) =
          [] :: splitSeg (joinSegs (t :: rest)) := by
        simp [splitSeg]
      rw [h3, splitSeg_joinSegs (t :: rest) hsf (by simp)]
      simpa using hfilter
  | false =>
    cases hle : l with
    | nil => simp [renderSegs, pathSegs, splitSeg]
    | cons t rest =>
      subst hle
      rw [show renderSegs false (t :: rest) =
        String.mk (joinSegs (t :: rest)) from by simp [renderSegs]]
      simp only [pathSegs]
      have h2 : (String.mk (joinSegs (t :: rest))).toList =
          joinSegs (t :: rest) := rfl
      rw [h2, splitSeg_joinSegs (t :: rest) hsf (by simp)]
      exact hfilter

theorem head_joinSegs (t : List Char) (rest : List (List Char)) (ht : t ≠ []) :
    (joinSegs (t :: rest)).head? = t.head? := by
  cases rest with
  | nil => rfl
  | cons u rest2 =>
    show (t ++ '/' :: joinSegs (u :: rest2)).head? = t.head?
    cases t with
    | nil => exact absurd rfl ht
    | cons c cs => rfl

theorem isRooted_render (rooted : Bool) (l : List (List Char))
    (hl : ∀ t ∈ l, SegWF t) : isRooted (renderSegs rooted l) = rooted := by
  cases rooted with
  | true => simp [renderSegs, isRooted]
  | false =>
    cases l with
    | nil => simp [renderSegs, isRooted]
    | cons t rest =>
      rw [show renderSegs false (t :: rest) =
        String.mk (joinSegs (t :: rest)) from by simp [renderSegs]]
      simp only [isRooted]
      have hwf := hl t (List.mem_cons_self t rest)
      rw [show (String.mk (joinSegs (t :: rest))).toList = joinSegs (t :: rest) from rfl]
      rw [head_joinSegs t rest hwf.1]
      cases t with
      | nil => exact absurd rfl hwf.1
      | cons c cs =>
        have hc : ¬ c = '/' := fun h => hwf.2 (h ▸ List.mem_cons_self c cs)
        simp [hc]


theorem cleanLoop_no_dots (rooted : Bool) (l : List (List Char))
    (hl : ['.', '.'] ∉ l) : ∀ acc, cleanLoop rooted acc l = acc.reverse ++ l := by
  induction l with
  | nil => intro acc; simp [cleanLoop]
  | cons seg rest ih =>
    intro acc
    have hd : ¬ seg = ['.', '.'] := fun h => hl (h ▸ List.mem_cons_self seg rest)
    have hrest : ['.', '.'] ∉ rest := fun h => hl (List.mem_cons_of_mem seg h)
    simp only [cleanLoop, if_neg hd]
    rw [ih hrest (seg :: acc)]
    simp

theorem cleanLoop_dots (rest : List (List Char)) (m : Nat) :
    ∀ k, cleanLoop false (List.replicate k ['.', '.'])
      (List.replicate m ['.', '.'] ++ rest) =
      cleanLoop false (List.replicate (k + m) ['.', '.']) rest := by
  induction m with
  | zero => intro k; simp
  | succ m ih =>
    intro k
    rw [List.replicate_succ, List.cons_append]
    cases k with
    | zero =>
      show cleanLoop false [['.', '.']] (List.replicate m ['.', '.'] ++ rest) = _
      rw [show [(['.', '.'] : List Char)] = List.replicate 1 ['.', '.'] from rfl,
        ih 1, show (0 : Nat) + (m + 1) = 1 + m from by omega]
    | succ k2 =>
      rw [List.replicate_succ]
      show cleanLoop false
        (['.', '.'] :: ['.', '.'] :: List.replicate k2 ['.', '.'])
        (List.replicate m ['.', '.'] ++ rest) = _
      rw [show (['.', '.'] :: ['.', '.'] :: List.replicate k2 ['.', '.'] :
          List (List Char)) = List.replicate (k2 + 2) ['.', '.'] from by
        rw [List.replicate_succ, List.replicate_succ],
        ih (k2 + 2), show k2 + 1 + (m + 1) = k2 + 2 + m from by omega]

theorem cleanLoop_normal (rooted : Bool) (l : List (List Char)) :
    ∀ acc front k, acc = front ++ List.replicate k ['.', '.'] →
      ['.', '.'] ∉ front → (rooted = true → k = 0) →
      NormalSegs rooted (cleanLoop rooted acc l) := by
  induction l with
  | nil =>
    intro acc front k hacc hfront hk
    simp only [cleanLoop]
    refine ⟨k, front.reverse, ?_, by simpa using hfront, hk⟩
    rw [hacc]
    simp [List.reverse_append, List.reverse_replicate]
  | cons seg rest ih =>
    intro acc front k hacc hfront hk
    by_cases hd : seg = ['.', '.']
    · subst hd
      cases hfr : front with
      | nil =>
        subst hfr
        simp only [List.nil_append] at hacc
        cases hk2 : k with
        | zero =>
          rw [hk2] at hacc
          simp only [List.replicate_zero] at hacc
          subst hacc
          cases rooted with
          | true =>
            show NormalSegs true (cleanLoop true [] rest)
            exact ih [] [] 0 rfl (by simp) (fun _ => rfl)
          | false =>
            show NormalSegs false (cleanLoop false [['.', '.']] rest)
            exact ih [['.', '.']] [] 1 rfl (by simp) (by simp)
        | succ k2 =>
          have hrf : rooted = false := by
            cases hrr : rooted with
            | false => rfl
            | true =>
              rw [hk2] at hk
              exact absurd (hk hrr) (by simp)
          subst hrf
          rw [hk2, List.replicate_succ] at hacc
          subst hacc
          show NormalSegs false (cleanLoop false
            (['.', '.'] :: ['.', '.'] :: List.replicate k2 ['.', '.']) rest)
          refine ih _ [] (k2 + 2) ?_ (by simp) (by simp)
          rw [List.replicate_succ, List.replicate_succ]
          rfl
      | cons f0 f1 =>
        have hf0 : ¬ f0 = ['.', '.'] :=
          fun h => hfront (hfr ▸ (h ▸ List.mem_cons_self f0 f1))
        subst hfr
        simp only [List.cons_append] at hacc
        subst hacc
        show NormalSegs rooted (if f0 = ['.', '.'] then
          cleanLoop rooted
            (['.', '.'] :: f0 :: (f1 ++ List.replicate k ['.', '.'])) rest
          else cleanLoop rooted (f1 ++ List.replicate k ['.', '.']) rest)
        rw [if_neg hf0]
        exact ih _ f1 k rfl
          (fun hm => hfront (List.mem_cons_of_mem f0 hm)) hk
    · simp only [cleanLoop, if_neg hd]
      exact ih (seg :: acc) (seg :: front) k (by rw [hacc]; rfl)
        (fun hm => by
          rcases List.mem_cons.mp hm with h | h
          · exact hd h.symm
          · exact hfront h) hk

theorem normal_cleanSegsOf (s : String) :
    NormalSegs (isRooted s) (cleanSegsOf s) :=
  cleanLoop_normal (isRooted s) (pathSegs s) [] [] 0 rfl (by simp) (by simp)

theorem cleanLoop_id (rooted : Bool) (l : List (List Char))
    (hn : NormalSegs rooted l) : cleanLoop rooted [] l = l := by
  obtain ⟨k, rest, hl, hrest, hk⟩ := hn
  subst hl
  cases rooted with
  | true =>
    rw [hk rfl]
    simp only [List.replicate_zero, List.nil_append]
    rw [cleanLoop_no_dots true rest hrest []]
    rfl
  | false =>
    rw [show ([] : List (List Char)) = List.replicate 0 ['.', '.'] from rfl,
      cleanLoop_dots rest k 0,
      cleanLoop_no_dots false rest hrest (List.replicate (0 + k) ['.', '.']),
      List.reverse_replicate, show (0 : Nat) + k = k from by omega]

theorem cleanSegsOf_render (rooted : Bool) (l : List (List Char))
    (hl : ∀ t ∈ l, SegWF t ∧ t ≠ ['.']) (hn : NormalSegs rooted l) :
    cleanSegsOf (renderSegs rooted l) = l := by
  simp only [cleanSegsOf]
  rw [isRooted_render rooted l (fun t ht => (hl t ht).1),
    pathSegs_render rooted l hl]
  exact cleanLoop_id rooted l hn

theorem goClean_idem (s : String) : goClean (goClean s) = goClean s := by
  conv_lhs => rw [goClean, goClean]
  rw [cleanSegsOf_render _ _ (cleanSegsOf_wf s) (normal_cleanSegsOf s),
    isRooted_render _ _ (fun t ht => (cleanSegsOf_wf s t ht).1)]
  rw [← goClean]

theorem pathSegs_goClean (s : String) : pathSegs (goClean s) = cleanSegsOf s := by
  rw [goClean]
  exact pathSegs_render _ _ (cleanSegsOf_wf s)

theorem isRooted_goClean (s : String) : isRooted (goClean s) = isRooted s := by
  rw [goClean]
  exact isRooted_render _ _ (fun t ht => (cleanSegsOf_wf s t ht).1)

theorem clean_pathSegs_eq (b : String) (hb : goClean b = b) :
    pathSegs b = cleanSegsOf b := by
  conv_lhs => rw [← hb]
  exact pathSegs_goClean b

theorem clean_eq_render (b : String) (hb : goClean b = b) :
    b = renderSegs (isRooted b) (pathSegs b) := by
  rw [clean_pathSegs_eq b hb]
  conv_lhs => rw [← hb]
  rfl

theorem clean_normal (b : String) (hb : goClean b = b) :
    NormalSegs (isRooted b) (pathSegs b) := by
  rw [clean_pathSegs_eq b hb]
  exact normal_cleanSegsOf b

theorem clean_pathSegs_wf (b : String) :
    ∀ t ∈ pathSegs b, SegWF t ∧ t ≠ ['.'] := pathSegs_wf b


theorem dots_join_head (l : List (List Char)) :
    ∃ x, joinSegs (['.', '.'] :: l) = '.' :: '.' :: x := by
  cases l with
  | nil => exact ⟨[], rfl⟩
  | cons u rest => exact ⟨'/' :: joinSegs (u :: rest), rfl⟩

theorem insideSegs_nil_iff (ts : List (List Char)) (t0 : List Char)
    (ts2 : List (List Char)) (hts : ts = t0 :: ts2) :
    InsideSegs [] ts ↔ ['.', '.'].isPrefixOf t0 = false := by
  subst hts
  constructor
  · rintro ⟨-, hcond⟩
    exact hcond t0 (by simp)
  · intro hp
    refine ⟨List.nil_prefix, ?_⟩
    intro s hs
    simp only [List.length_nil, List.drop_zero, List.head?_cons,
      Option.some.injEq] at hs
    exact hs ▸ hp

theorem insideSegs_cons (b : List Char) (bs2 ts2 : List (List Char)) :
    InsideSegs (b :: bs2) (b :: ts2) ↔ InsideSegs bs2 ts2 := by
  unfold InsideSegs
  rw [List.cons_prefix_cons]
  simp [List.drop_succ_cons]

theorem not_insideSegs_cons_nil (b : List Char) (bs2 : List (List Char)) :
    ¬ InsideSegs (b :: bs2) [] := by
  rintro ⟨hpre, -⟩
  simp [List.prefix_nil] at hpre

theorem not_insideSegs_cons_ne (b t : List Char) (bs2 ts2 : List (List Char))
    (hne : b ≠ t) : ¬ InsideSegs (b :: bs2) (t :: ts2) := by
  rintro ⟨hpre, -⟩
  rw [List.cons_prefix_cons] at hpre
  exact hne hpre.1

theorem relTail_reject (b : List Char) (bs2 ts : List (List Char))
    (hwf : SegWF b) :
    ¬ ∃ r, relTail (b :: bs2) ts = some r ∧
      ['.', '.'].isPrefixOf r = false := by
  rintro ⟨r, hr, hpref⟩
  by_cases hb : b = ['.', '.']
  · simp [relTail, hb] at hr
  · have hh : ¬ (b :: bs2 : List (List Char)).head? = some ['.', '.'] := by
      simp [hb]
    have hnn : ¬ ((b :: bs2 : List (List Char)) = [] ∨
        (b :: bs2 : List (List Char)) = [[]]) := by
      rintro (h | h)
      · cases h
      · cases h
        exact hwf.1 rfl
    simp only [relTail, if_neg hh, if_neg hnn] at hr
    obtain ⟨x, hx⟩ := dots_join_head ((b :: bs2).map (fun _ => ['.', '.'])
      |>.tail)
    have hmap : (b :: bs2).map (fun _ => (['.', '.'] : List Char)) =
        ['.', '.'] :: bs2.map (fun _ => ['.', '.']) := rfl
    rw [hmap] at hr
    obtain ⟨y, hy⟩ := dots_join_head (bs2.map (fun _ => ['.', '.']))
    cases hts : ts with
    | nil =>
      rw [hts] at hr
      rw [if_pos rfl] at hr
      have hr2 : joinSegs (['.', '.'] :: List.map (fun _ => ['.', '.']) bs2) =
          r := by
        exact Option.some.inj hr
      rw [← hr2, hy] at hpref
      simp [List.isPrefixOf] at hpref
    | cons t0 ts2 =>
      rw [hts] at hr
      rw [if_neg (by simp : ¬ (t0 :: ts2 : List (List Char)) = [])] at hr
      have hr2 : joinSegs (['.', '.'] :: List.map (fun _ => ['.', '.']) bs2) ++
          '/' :: joinSegs (t0 :: ts2) = r := by
        exact Option.some.inj hr
      rw [← hr2, hy] at hpref
      simp [List.isPrefixOf] at hpref

theorem relLoop_char (bs : List (List Char)) :
    ∀ ts, (∀ s ∈ bs, SegWF s) → (∀ s ∈ ts, SegWF s) → bs ≠ ts →
    ((∃ r, relLoop bs ts = some r ∧ ['.', '.'].isPrefixOf r = false) ↔
      InsideSegs bs ts) := by
  induction bs with
  | nil =>
    intro ts _ hts hne
    cases ts with
    | nil => exact absurd rfl hne
    | cons t0 ts2 =>
      have hwf0 : SegWF t0 := hts t0 (List.mem_cons_self t0 ts2)
      rw [insideSegs_nil_iff (t0 :: ts2) t0 ts2 rfl]
      simp only [relLoop, Option.some.injEq]
      constructor
      · rintro ⟨r, hr, hpref⟩
        rw [← hr, dotdot_pref_joinSegs t0 ts2 hwf0] at hpref
        exact hpref
      · intro hp
        exact ⟨joinSegs (t0 :: ts2), rfl,
          by rw [dotdot_pref_joinSegs t0 ts2 hwf0]; exact hp⟩
  | cons b bs2 ih =>
    intro ts hbs hts hne
    have hwfb : SegWF b := hbs b (List.mem_cons_self b bs2)
    cases ts with
    | nil =>
      simp only [relLoop]
      constructor
      · intro hex
        exact absurd hex (relTail_reject b bs2 [] hwfb)
      · intro hin
        exact absurd hin (not_insideSegs_cons_nil b bs2)
    | cons t0 ts2 =>
      by_cases hbt : b = t0
      · subst hbt
        have hne2 : bs2 ≠ ts2 := fun h => hne (by rw [h])
        simp only [relLoop, if_pos rfl]
        rw [insideSegs_cons b bs2 ts2]
        exact ih ts2 (fun s hs => hbs s (List.mem_cons_of_mem b hs))
          (fun s hs => hts s (List.mem_cons_of_mem b hs)) hne2
      · simp only [relLoop, if_neg hbt]
        constructor
        · intro hex
          exact absurd hex (relTail_reject b bs2 (t0 :: ts2) hwfb)
        · intro hin
          exact absurd hin (not_insideSegs_cons_ne b t0 bs2 ts2 hbt)


theorem isRooted_str_append (b r : String) (hb0 : b ≠ "") :
    isRooted (b ++ r) = isRooted b := by
  have hbl : b.data ≠ [] := by
    intro h
    refine hb0 ?_
    have h2 : b = String.mk b.data := rfl
    rw [h] at h2
    exact h2
  have hh : (b.data ++ r.data).head? = b.data.head? := by
    cases hd : b.data with
    | nil => exact absurd hd hbl
    | cons c cs => rfl
  simp only [isRooted, String.toList, String.data_append, hh]

theorem goRel_clean (b t : String) (hb : goClean b = b) (ht : goClean t = t)
    (hne : ¬ t = b)
    (hroot : isRooted (if b = "." then "" else b) = isRooted t) :
    goRel b t =
      (relLoop (rawSegs (if b = "." then "" else b)) (rawSegs t)).map
        String.mk := by
  show (if goClean t = goClean b then some "."
    else if isRooted (if goClean b = "." then "" else goClean b) ≠
        isRooted (goClean t) then none
      else (relLoop (rawSegs (if goClean b = "." then "" else goClean b))
        (rawSegs (goClean t))).map String.mk) = _
  rw [hb, ht, if_neg hne, hroot]
  rw [if_neg (by simp)]

theorem isLocalFile_relLoop (b t : String) (A B : List (List Char))
    (hrel : goRel b t = (relLoop A B).map String.mk) :
    (isLocalFile b t = true ↔
      ∃ r, relLoop A B = some r ∧ ['.', '.'].isPrefixOf r = false) := by
  have hdd : ("..").toList = ['.', '.'] := by decide
  cases hlo : relLoop A B with
  | none =>
    have hmap : goRel b t = none := by rw [hrel, hlo]; rfl
    have hh2 : isLocalFile b t = false := by simp [isLocalFile, hmap]
    rw [hh2]
    simp
  | some r =>
    have hmap : goRel b t = some (String.mk r) := by rw [hrel, hlo]; rfl
    have hh2 : isLocalFile b t = ! hasPref (String.mk r) ".." := by
      simp [isLocalFile, hmap]
    have hh : hasPref (String.mk r) ".." = ['.', '.'].isPrefixOf r := by
      simp only [hasPref, hdd]
      rfl
    rw [hh2, hh]
    constructor
    · intro hp
      exact ⟨r, rfl, by simpa using hp⟩
    · rintro ⟨r2, hr2, hp⟩
      cases hr2
      simpa using hp

theorem renderSegs_rel_ne_root (l : List (List Char))
    (hl : ∀ u ∈ l, SegWF u) : renderSegs false l ≠ "/" := by
  cases l with
  | nil =>
    intro h
    simp [renderSegs] at h
  | cons u rest =>
    intro h
    have hwf := hl u (List.mem_cons_self u rest)
    have hdata : joinSegs (u :: rest) = ['/'] := by
      have h2 : renderSegs false (u :: rest) =
          String.mk (joinSegs (u :: rest)) := by
        simp [renderSegs]
      rw [h2] at h
      have h3 := congrArg String.data h
      simpa using h3
    have hhead := congrArg List.head? hdata
    rw [head_joinSegs u rest hwf.1] at hhead
    cases hu : u with
    | nil => exact hwf.1 hu
    | cons c cs =>
      rw [hu] at hhead
      simp at hhead
      exact hwf.2 (hu ▸ (hhead ▸ List.mem_cons_self c cs))

theorem rawSegs_render_rel (l : List (List Char)) (hl : ∀ u ∈ l, SegWF u)
    (hne : l ≠ []) : rawSegs (renderSegs false l) = l := by
  have hroot := renderSegs_rel_ne_root l hl
  have h2 : renderSegs false l = String.mk (joinSegs l) := by
    simp [renderSegs, hne]
  rw [h2] at hroot
  rw [h2]
  simp only [rawSegs, if_neg hroot]
  rw [show (String.mk (joinSegs l)).toList = joinSegs l from rfl]
  exact splitSeg_joinSegs l (fun u hu => (hl u hu).2) hne

theorem renderSegs_rooted_ne_root (l : List (List Char))
    (hl : ∀ u ∈ l, SegWF u) (hne : l ≠ []) : renderSegs true l ≠ "/" := by
  cases l with
  | nil => exact absurd rfl hne
  | cons u rest =>
    intro h
    have hwf := hl u (List.mem_cons_self u rest)
    have hdata : ('/' :: joinSegs (u :: rest) : List Char) = ['/'] := by
      have h3 := congrArg String.data h
      simpa [renderSegs] using h3
    have h5 : joinSegs (u :: rest) = [] := by
      injection hdata
    have hhead := congrArg List.head? h5
    rw [head_joinSegs u rest hwf.1] at hhead
    cases hu : u with
    | nil => exact hwf.1 hu
    | cons c cs =>
      rw [hu] at hhead
      simp at hhead

theorem rawSegs_render_rooted (l : List (List Char)) (hl : ∀ u ∈ l, SegWF u)
    (hne : l ≠ []) : rawSegs (renderSegs true l) = [] :: l := by
  have hroot := renderSegs_rooted_ne_root l hl hne
  have h2 : renderSegs true l = String.mk ('/' :: joinSegs l) := by
    simp [renderSegs]
  rw [h2] at hroot
  rw [h2]
  simp only [rawSegs, if_neg hroot]
  rw [show (String.mk ('/' :: joinSegs l)).toList = '/' :: joinSegs l from rfl]
  have h3 : splitSeg ('/' :: joinSegs l) = [] :: splitSeg (joinSegs l) := by
    simp [splitSeg]
  rw [h3, splitSeg_joinSegs l (fun u hu => (hl u hu).2) hne]

theorem insideSegs_refl (l : List (List Char)) : InsideSegs l l := by
  refine ⟨List.prefix_refl l, ?_⟩
  intro s hs
  simp [List.drop_length] at hs


theorem isLocal_join_iff (b p : String) (hb : goClean b = b) (hb0 : b ≠ "") :
    isLocalFile b (goJoin b p) = true ↔
      InsideSegs (pathSegs b) (pathSegs (goJoin b p)) := by
  have htdef : goJoin b p = goClean (b ++ "/" ++ p) := by simp [goJoin, hb0]
  have htc : goClean (goJoin b p) = goJoin b p := by
    rw [htdef]
    exact goClean_idem _
  have hslash : (b ++ "/") ≠ "" := by
    intro h
    have h2 := congrArg String.data h
    rw [String.data_append] at h2
    simp at h2
  have hroot : isRooted (goJoin b p) = isRooted b := by
    rw [htdef, isRooted_goClean]
    calc isRooted (b ++ "/" ++ p) = isRooted (b ++ "/") :=
        isRooted_str_append (b ++ "/") p hslash
      _ = isRooted b := isRooted_str_append b "/" hb0
  by_cases heq : goJoin b p = b
  · rw [heq]
    have hsome : goRel b b = some "." := by
      show (if goClean b = goClean b then some "." else _) = some "."
      rw [if_pos rfl]
    have hpf : hasPref "." ".." = false := by decide
    have h1 : isLocalFile b b = true := by
      simp [isLocalFile, hsome, hpf]
    exact iff_of_true h1 (insideSegs_refl _)
  · have hwfb : ∀ u ∈ pathSegs b, SegWF u := fun u hu => (pathSegs_wf b u hu).1
    have hwft : ∀ u ∈ pathSegs (goJoin b p), SegWF u :=
      fun u hu => (pathSegs_wf _ u hu).1
    have hbrender : b = renderSegs (isRooted b) (pathSegs b) :=
      clean_eq_render b hb
    have htrender : goJoin b p =
        renderSegs (isRooted b) (pathSegs (goJoin b p)) := by
      have h2 := clean_eq_render (goJoin b p) htc
      rwa [hroot] at h2
    by_cases hdot : b = "."
    · have hpb : pathSegs b = [] := by rw [hdot]; decide
      have hrootb : isRooted b = false := by rw [hdot]; decide
      have hroott : isRooted (goJoin b p) = false := by rw [hroot, hrootb]
      have hrel : goRel b (goJoin b p) =
          (relLoop (rawSegs "") (rawSegs (goJoin b p))).map String.mk := by
        have h2 := goRel_clean b (goJoin b p) hb htc heq
          (by rw [if_pos hdot, hroott]; decide)
        rwa [if_pos hdot] at h2
      have htne : pathSegs (goJoin b p) ≠ [] := by
        intro h
        apply heq
        rw [htrender, hrootb, h, hdot]
        decide
      have hrawt : rawSegs (goJoin b p) = pathSegs (goJoin b p) := by
        conv_lhs => rw [htrender, hrootb]
        exact rawSegs_render_rel _ hwft htne
      rw [isLocalFile_relLoop b (goJoin b p) (rawSegs "")
        (rawSegs (goJoin b p)) hrel, hrawt, hpb]
      have hraw0 : rawSegs "" = [[]] := by decide
      rw [hraw0]
      cases htse : pathSegs (goJoin b p) with
      | nil => exact absurd htse htne
      | cons t0 ts2 =>
        rw [htse] at hwft
        have hwf0 : SegWF t0 := hwft t0 (List.mem_cons_self t0 ts2)
        have ht0ne : ¬ ([] : List Char) = t0 := fun h => hwf0.1 h.symm
        have hstep : relLoop [[]] (t0 :: ts2) =
            some (joinSegs (t0 :: ts2)) := by
          simp only [relLoop, if_neg ht0ne]
          simp [relTail]
        rw [hstep]
        have h3 := relLoop_char [] (t0 :: ts2) (by simp) hwft (by simp)
        exact h3
    · have hrel : goRel b (goJoin b p) =
          (relLoop (rawSegs b) (rawSegs (goJoin b p))).map String.mk := by
        have h2 := goRel_clean b (goJoin b p) hb htc heq
          (by rw [if_neg hdot, hroot])
        rwa [if_neg hdot] at h2
      rw [isLocalFile_relLoop b (goJoin b p) (rawSegs b)
        (rawSegs (goJoin b p)) hrel]
      have hsne : pathSegs b ≠ pathSegs (goJoin b p) := by
        intro h
        apply heq
        rw [htrender, ← h, ← hbrender]
      cases hr : isRooted b with
      | false =>
        have hbne : pathSegs b ≠ [] := by
          intro h
          apply hdot
          rw [hbrender, hr, h]
          rfl
        have hrawb : rawSegs b = pathSegs b := by
          conv_lhs => rw [hbrender, hr]
          exact rawSegs_render_rel _ hwfb hbne
        by_cases htnil : pathSegs (goJoin b p) = []
        · have ht1 : goJoin b p = "." := by
            rw [htrender, hr, htnil]
            rfl
          have hrawt : rawSegs (goJoin b p) = [['.']] := by rw [ht1]; decide
          rw [hrawb, hrawt, htnil]
          cases hbs : pathSegs b with
          | nil => exact absurd hbs hbne
          | cons b0 bs2 =>
            rw [hbs] at hwfb
            have hb0wf : SegWF b0 := hwfb b0 (List.mem_cons_self b0 bs2)
            have hb0dot : ¬ b0 = ['.'] := by
              have h4 := pathSegs_wf b b0 (hbs ▸ List.mem_cons_self b0 bs2)
              exact h4.2
            constructor
            · intro hex
              have h5 : relLoop (b0 :: bs2) [['.']] =
                  relTail (b0 :: bs2) [['.']] := by
                simp only [relLoop, if_neg hb0dot]
              rw [h5] at hex
              exact absurd hex (relTail_reject b0 bs2 [['.']] hb0wf)
            · intro hin
              exact absurd hin (not_insideSegs_cons_nil b0 bs2)
        · have hrawt : rawSegs (goJoin b p) = pathSegs (goJoin b p) := by
            conv_lhs => rw [htrender, hr]
            exact rawSegs_render_rel _ hwft htnil
          rw [hrawb, hrawt]
          exact relLoop_char (pathSegs b) (pathSegs (goJoin b p)) hwfb hwft
            hsne
      | true =>
        have hkey : relLoop (rawSegs b) (rawSegs (goJoin b p)) =
            relLoop (pathSegs b) (pathSegs (goJoin b p)) := by
          cases hbs : pathSegs b with
          | nil =>
            have hbroot : b = "/" := by
              rw [hbrender, hr, hbs]
              decide
            cases htse : pathSegs (goJoin b p) with
            | nil =>
              exfalso
              apply heq
              rw [htrender, hr, htse, hbroot]
              decide
            | cons t0 ts2 =>
              have hrawt : rawSegs (goJoin b p) = [] :: t0 :: ts2 := by
                conv_lhs => rw [htrender, hr]
                rw [← htse]
                exact rawSegs_render_rooted _ hwft (by rw [htse]; simp)
              have hrawb0 : rawSegs b = [[]] := by rw [hbroot]; decide
              rw [hrawb0, hrawt]
              show relLoop [] (t0 :: ts2) = _
              rfl
          | cons b0 bs2 =>
            have hrawb : rawSegs b = [] :: b0 :: bs2 := by
              conv_lhs => rw [hbrender, hr]
              rw [← hbs]
              exact rawSegs_render_rooted _ hwfb (by rw [hbs]; simp)
            cases htse : pathSegs (goJoin b p) with
            | nil =>
              have htroot : goJoin b p = "/" := by
                rw [htrender, hr, htse]
                decide
              have hrawt0 : rawSegs (goJoin b p) = [[]] := by
                rw [htroot]
                decide
              rw [hrawb, hrawt0]
              show relLoop (b0 :: bs2) [] = _
              rfl
            | cons t0 ts2 =>
              have hrawt : rawSegs (goJoin b p) = [] :: t0 :: ts2 := by
                conv_lhs => rw [htrender, hr]
                rw [← htse]
                exact rawSegs_render_rooted _ hwft (by rw [htse]; simp)
              rw [hrawb, hrawt]
              show relLoop (b0 :: bs2) (t0 :: ts2) = _
              rfl
        rw [hkey]
        exact relLoop_char (pathSegs b) (pathSegs (goJoin b p)) hwfb hwft hsne


theorem splitSeg_append_slash (x : List Char) :
    splitSeg (x ++ ['/']) = splitSeg x ++ [[]] := by
  induction x with
  | nil => rfl
  | cons c cs ih =>
    by_cases hc : c = '/'
    · show splitSeg (c :: (cs ++ ['/'])) = _
      simp only [splitSeg, if_pos hc, ih]
      rfl
    · show splitSeg (c :: (cs ++ ['/'])) = _
      simp only [splitSeg, if_neg hc, ih]
      cases hsp : splitSeg cs with
      | nil => exact absurd hsp (splitSeg_ne_nil cs)
      | cons s0 r => rfl

theorem pathSegs_append_slash (b : String) :
    pathSegs (b ++ "/") = pathSegs b := by
  simp only [pathSegs]
  have h1 : (b ++ "/").toList = b.toList ++ ['/'] := by
    simp [String.toList, String.data_append]
  rw [h1, splitSeg_append_slash]
  simp

theorem goJoin_empty (b : String) (hb : goClean b = b) (hb0 : b ≠ "") :
    goJoin b "" = b := by
  have h0 : b ++ "/" ++ "" = b ++ "/" := by
    have := congrArg String.mk (show (b ++ "/" ++ "").data = (b ++ "/").data
      from by simp [String.data_append])
    exact this
  simp only [goJoin, if_neg hb0]
  rw [h0]
  have h1 : cleanSegsOf (b ++ "/") = cleanSegsOf b := by
    simp only [cleanSegsOf, pathSegs_append_slash,
      isRooted_str_append b "/" hb0]
  conv_lhs => rw [goClean, h1, isRooted_str_append b "/" hb0, ← goClean]
  exact hb

theorem isLocalFile_self (b : String) : isLocalFile b b = true := by
  have hsome : goRel b b = some "." := by
    show (if goClean b = goClean b then some "." else _) = some "."
    rw [if_pos rfl]
  have hpf : hasPref "." ".." = false := by decide
  simp [isLocalFile, hsome, hpf]

/-- C5 counterexample: the claim that the check rejects absolute paths and
accepts every path resolving inside the base fails. An absolute request
"/etc/passwd" is joined into the base and accepted (the claim requires
rejection), while the request "..x", which resolves to the file "..x"
inside the base, is rejected because the relative result begins with the
two characters ".." without being a parent-directory traversal segment. -/
theorem c5_counterexample :
    isLocalFile "base" (goJoin "base" "/etc/passwd") = true ∧
      readyPath "base" "/etc/passwd" = some "base/etc/passwd" ∧
      isLocalFile "base" (goJoin "base" "..x") = false ∧
      readyPath "base" "..x" = none := by
  refine ⟨by decide, by decide, by decide, by decide⟩

/-- C5 amended: for every clean non-empty base directory b and every
requested path p, the check computes the path of join(b, p) relative to b
and accepts exactly when, at the segment level, the cleaned join lies at or
below b with its first segment beneath b not beginning with the two
characters ".." (so every escaping traversal is rejected, but also inside
names beginning with ".."); absolute requests are reinterpreted inside the
base rather than rejected; the base itself (empty request) is accepted. -/
theorem c5_amended_sandbox_characterization (b p : String)
    (hb : goClean b = b) (hb0 : b ≠ "") :
    (readyPath b p = some (goJoin b p) ↔
      InsideSegs (pathSegs b) (pathSegs (goJoin b p))) ∧
    (readyPath b p = none ↔
      ¬ InsideSegs (pathSegs b) (pathSegs (goJoin b p))) ∧
    readyPath b "" = some b := by
  have hiff := isLocal_join_iff b p hb hb0
  have hempty : readyPath b "" = some b := by
    have h1 := goJoin_empty b hb hb0
    simp [readyPath, h1, isLocalFile_self b]
  refine ⟨?_, ?_, hempty⟩
  · cases hloc : isLocalFile b (goJoin b p) with
    | true =>
      simp only [readyPath, hloc, if_pos rfl]
      simp only [hloc, true_iff] at hiff
      simp [hiff]
    | false =>
      simp only [readyPath, hloc]
      have hnot : ¬ InsideSegs (pathSegs b) (pathSegs (goJoin b p)) := by
        intro hin
        rw [hiff.mpr hin] at hloc
        cases hloc
      simp [hnot]
  · cases hloc : isLocalFile b (goJoin b p) with
    | true =>
      simp only [readyPath, hloc, if_pos rfl]
      simp only [hloc, true_iff] at hiff
      simp [hiff]
    | false =>
      simp only [readyPath, hloc]
      have hnot : ¬ InsideSegs (pathSegs b) (pathSegs (goJoin b p)) := by
        intro hin
        rw [hiff.mpr hin] at hloc
        cases hloc
      simp [hnot]

/-- Witness for the amended C5: an escaping traversal from base "base" is
rejected, and the base itself is accepted. -/
theorem c5_witness :
    (readyPath "base" "../../x" = some (goJoin "base" "../../x") ↔
      InsideSegs (pathSegs "base") (pathSegs (goJoin "base" "../../x"))) ∧
    (readyPath "base" "../../x" = none ↔
      ¬ InsideSegs (pathSegs "base") (pathSegs (goJoin "base" "../../x"))) ∧
    readyPath "base" "" = some "base" :=
  c5_amended_sandbox_characterization "base" "../../x" (by decide) (by decide)


theorem splitSeg_glue (y : List Char) : ∀ x,
    splitSeg (x ++ '/' :: y) = splitSeg x ++ splitSeg y := by
  intro x
  induction x with
  | nil => simp [splitSeg]
  | cons c cs ih =>
    by_cases hc : c = '/'
    · show splitSeg (c :: (cs ++ '/' :: y)) = _
      simp only [splitSeg, if_pos hc, ih]
      rfl
    · show splitSeg (c :: (cs ++ '/' :: y)) = _
      simp only [splitSeg, if_neg hc, ih]
      cases hsp : splitSeg cs with
      | nil => exact absurd hsp (splitSeg_ne_nil cs)
      | cons s0 r => rfl

theorem pathSegs_glue (a c : String) :
    pathSegs (a ++ "/" ++ c) = pathSegs a ++ pathSegs c := by
  have h1 : (a ++ "/" ++ c).toList = a.toList ++ '/' :: c.toList := by
    simp only [String.toList, String.data_append]
    simp [show ("/" : String).data = ['/'] from by decide]
  simp only [pathSegs, h1, splitSeg_glue, List.filter_append]

theorem cleanLoop_step_dd_cons (rooted : Bool) (a : List Char)
    (as l : List (List Char)) :
    cleanLoop rooted (a :: as) (['.', '.'] :: l) =
      if a = ['.', '.'] then cleanLoop rooted (['.', '.'] :: a :: as) l
      else cleanLoop rooted as l := by
  by_cases ha : a = ['.', '.'] <;> simp [cleanLoop, ha]

theorem cleanLoop_step_dd_nil (rooted : Bool) (l : List (List Char)) :
    cleanLoop rooted [] (['.', '.'] :: l) =
      if rooted then cleanLoop rooted [] l
      else cleanLoop rooted [['.', '.']] l := by
  cases rooted <;> simp [cleanLoop]

theorem cleanLoop_step_push (rooted : Bool) (seg : List Char)
    (acc l : List (List Char)) (hd : seg ≠ ['.', '.']) :
    cleanLoop rooted acc (seg :: l) = cleanLoop rooted (seg :: acc) l := by
  simp [cleanLoop, hd]

theorem cleanLoop_append (rooted : Bool) (ys : List (List Char)) :
    ∀ xs acc, cleanLoop rooted acc (xs ++ ys) =
      cleanLoop rooted ((cleanLoop rooted acc xs).reverse) ys := by
  intro xs
  induction xs with
  | nil =>
    intro acc
    simp [cleanLoop]
  | cons seg rest ih =>
    intro acc
    by_cases hd : seg = ['.', '.']
    · subst hd
      cases acc with
      | nil =>
        rw [show (['.', '.'] :: rest : List (List Char)) ++ ys =
          ['.', '.'] :: (rest ++ ys) from rfl]
        rw [cleanLoop_step_dd_nil, cleanLoop_step_dd_nil]
        cases rooted with
        | true =>
          rw [if_pos rfl, if_pos rfl]
          exact ih []
        | false =>
          rw [if_neg (by simp), if_neg (by simp)]
          exact ih [['.', '.']]
      | cons a as =>
        rw [show (['.', '.'] :: rest : List (List Char)) ++ ys =
          ['.', '.'] :: (rest ++ ys) from rfl]
        rw [cleanLoop_step_dd_cons, cleanLoop_step_dd_cons]
        by_cases ha : a = ['.', '.']
        · rw [if_pos ha, if_pos ha]
          exact ih _
        · rw [if_neg ha, if_neg ha]
          exact ih _
    · show cleanLoop rooted acc ((seg :: rest) ++ ys) = _
      simp only [List.cons_append, cleanLoop, if_neg hd]
      exact ih (seg :: acc)

theorem pathSegs_goJoin_clean (b p : String) (hb : goClean b = b)
    (hb0 : b ≠ "") :
    pathSegs (goJoin b p) =
      cleanLoop (isRooted b) ((pathSegs b).reverse) (pathSegs p) := by
  have hjoin : goJoin b p = goClean (b ++ "/" ++ p) := by
    rw [goJoin, if_neg hb0]
  have hslash : (b ++ "/") ≠ "" := by
    intro h
    have h2 := congrArg String.data h
    rw [String.data_append] at h2
    simp at h2
  have hroot : isRooted (b ++ "/" ++ p) = isRooted b := by
    calc isRooted (b ++ "/" ++ p) = isRooted (b ++ "/") :=
        isRooted_str_append (b ++ "/") p hslash
      _ = isRooted b := isRooted_str_append b "/" hb0
  rw [hjoin, pathSegs_goClean, cleanSegsOf, hroot, pathSegs_glue,
    cleanLoop_append, cleanLoop_id _ _ (clean_normal b hb)]

theorem traversal_not_inside (b : String) (hb : goClean b = b) (hb0 : b ≠ "")
    (hnd : ['.', '.'] ∉ pathSegs b) (hne : pathSegs b ≠ [])
    (hlen : isRooted b = false ∨ 2 ≤ (pathSegs b).length)
    (hguard : pathSegs b ≠ (pathSegs b).dropLast.dropLast ++
      [['e', 't', 'c'], ['p', 'a', 's', 's', 'w', 'd']]) :
    ¬ InsideSegs (pathSegs b) (pathSegs (goJoin b "../../etc/passwd")) := by
  have hP0 : pathSegs "../../etc/passwd" =
      [['.', '.'], ['.', '.'], ['e', 't', 'c'],
        ['p', 'a', 's', 's', 'w', 'd']] := by decide
  have hT := pathSegs_goJoin_clean b "../../etc/passwd" hb hb0
  rw [hP0] at hT
  rcases hrev : (pathSegs b).reverse with _ | ⟨y1, _ | ⟨y2, t2⟩⟩
  · exact absurd (List.reverse_eq_nil_iff.mp hrev) hne
  · have hy1m : y1 ∈ pathSegs b := by
      rw [← List.mem_reverse, hrev]
      exact List.mem_cons_self _ _
    have hy1 : y1 ≠ ['.', '.'] := fun h => hnd (h ▸ hy1m)
    rw [hrev, cleanLoop_step_dd_cons, if_neg hy1] at hT
    have hbseg : pathSegs b = [y1] := by
      have h2 := congrArg List.reverse hrev
      simpa using h2
    have hR : isRooted b = false := by
      rcases hlen with h | h
      · exact h
      · rw [hbseg] at h
        simp at h
    rw [hR] at hT
    have hconc : cleanLoop false []
        [['.', '.'], ['e', 't', 'c'], ['p', 'a', 's', 's', 'w', 'd']] =
        [['.', '.'], ['e', 't', 'c'], ['p', 'a', 's', 's', 'w', 'd']] := by
      decide
    rw [hconc] at hT
    intro hin
    have hpre := hin.1
    rw [hbseg, hT] at hpre
    exact hy1 (List.cons_prefix_cons.mp hpre).1
  · have hy1m : y1 ∈ pathSegs b := by
      rw [← List.mem_reverse, hrev]
      exact List.mem_cons_self _ _
    have hy1 : y1 ≠ ['.', '.'] := fun h => hnd (h ▸ hy1m)
    have hy2m : y2 ∈ pathSegs b := by
      rw [← List.mem_reverse, hrev]
      exact List.mem_cons_of_mem _ (List.mem_cons_self _ _)
    have hy2 : y2 ≠ ['.', '.'] := fun h => hnd (h ▸ hy2m)
    rw [hrev, cleanLoop_step_dd_cons, if_neg hy1,
      cleanLoop_step_dd_cons, if_neg hy2,
      cleanLoop_step_push (isRooted b) ['e', 't', 'c'] t2
        [['p', 'a', 's', 's', 'w', 'd']] (by decide),
      cleanLoop_step_push (isRooted b) ['p', 'a', 's', 's', 'w', 'd']
        (['e', 't', 'c'] :: t2) [] (by decide)] at hT
    have hTr : pathSegs (goJoin b "../../etc/passwd") =
        t2.reverse ++ [['e', 't', 'c'], ['p', 'a', 's', 's', 'w', 'd']] := by
      rw [hT]
      show (['p', 'a', 's', 's', 'w', 'd'] :: ['e', 't', 'c'] :: t2).reverse = _
      simp
    have hbseg : pathSegs b = t2.reverse ++ [y2, y1] := by
      have h2 := congrArg List.reverse hrev
      simpa using h2
    intro hin
    have hlen2 : (pathSegs b).length =
        (pathSegs (goJoin b "../../etc/passwd")).length := by
      rw [hbseg, hTr]
      simp
    have heq := List.IsPrefix.eq_of_length hin.1 hlen2
    have hdl : (pathSegs b).dropLast.dropLast = t2.reverse := by
      rw [hbseg, show t2.reverse ++ [y2, y1] = (t2.reverse ++ [y2]) ++ [y1] by
        simp, List.dropLast_concat, List.dropLast_concat]
    refine hguard ?_
    rw [hdl, heq, hTr]

/-- C6 counterexample: the claim that the traversal write fails on every
backend is false. On a concrete registry state with a live token whose
session store is the in-memory backend, Write(token, "../../etc/passwd",
data) succeeds, the data is stored under the literal path, and a subsequent
Read of the same path returns it: MemStore.Write performs no sandbox
check at all. -/
theorem c6_counterexample :
    (writeH sampleHandler 5 "../../etc/passwd" [7] 3).1 = .ok () ∧
    memRead (memWrite memStoreEmpty "../../etc/passwd" [7] 3)
      "../../etc/passwd" = .ok [7] ∧
    (readH (writeH sampleHandler 5 "../../etc/passwd" [7] 3).2 5
      "../../etc/passwd" 4).1 = .ok [7] := by
  refine ⟨rfl, rfl, rfl⟩

/-- C6 amended: sandbox enforcement on the traversal request holds only on
the filesystem backend. For a clean, non-empty, traversal-free base
directory of at least two segments when absolute (and which does not
itself re-enter at .../etc/passwd), FileStore.Write of "../../etc/passwd"
fails with the sandbox-violation error and leaves the disk and the store
unchanged; the in-memory backend has no check: its Write stores the data
under the literal path, where Read returns it. -/
theorem c6_amended_sandbox_file_backend_only (b lwp : String) (disk : FsDisk)
    (data : List Nat) (hb : goClean b = b) (hb0 : b ≠ "")
    (hnd : ['.', '.'] ∉ pathSegs b) (hne : pathSegs b ≠ [])
    (hlen : isRooted b = false ∨ 2 ≤ (pathSegs b).length)
    (hguard : pathSegs b ≠ (pathSegs b).dropLast.dropLast ++
      [['e', 't', 'c'], ['p', 'a', 's', 's', 'w', 'd']]) :
    fileWrite ⟨b, lwp⟩ disk "../../etc/passwd" data =
      (.error .nonLocalFile, disk, ⟨b, lwp⟩) ∧
    ∀ (ms : MemStore) (now : Int),
      memRead (memWrite ms "../../etc/passwd" data now) "../../etc/passwd" =
        .ok data := by
  have hnot := traversal_not_inside b hb hb0 hnd hne hlen hguard
  have hloc : isLocalFile b (goJoin b "../../etc/passwd") = false := by
    cases hl : isLocalFile b (goJoin b "../../etc/passwd") with
    | false => rfl
    | true => exact absurd ((isLocal_join_iff b _ hb hb0).mp hl) hnot
  have hready : readyPath b "../../etc/passwd" = none := by
    simp [readyPath, hloc]
  refine ⟨?_, ?_⟩
  · simp [fileWrite, hready]
  · intro ms now
    simp [memWrite, memRead, lookupA_insertA_self]

/-- Witness for the amended C6: from the base directory "tmp/waldo" the
filesystem write of the traversal path fails and changes nothing, while
the in-memory write stores the data retrievably. -/
theorem c6_witness :
    fileWrite ⟨"tmp/waldo", ""⟩ [] "../../etc/passwd" [7] =
      (.error .nonLocalFile, [], ⟨"tmp/waldo", ""⟩) ∧
    memRead (memWrite memStoreEmpty "../../etc/passwd" [7] 3)
      "../../etc/passwd" = .ok [7] :=
  ⟨(c6_amended_sandbox_file_backend_only "tmp/waldo" "" [] [7] (by decide)
      (by decide) (by decide) (by decide) (Or.inl (by decide))
      (by decide)).1,
    (c6_amended_sandbox_file_backend_only "tmp/waldo" "" [] [7] (by decide)
      (by decide) (by decide) (by decide) (Or.inl (by decide))
      (by decide)).2 memStoreEmpty 3⟩

theorem slashTerm_append (A B : List (List Char)) :
    slashTerm (A ++ B) = slashTerm A ++ slashTerm B := by
  induction A with
  | nil => rfl
  | cons a A ih => simp [slashTerm, ih]

theorem joinSegs_concat (A : List (List Char)) (last : List Char)
    (hA : A ≠ []) : joinSegs (A ++ [last]) = joinSegs A ++ '/' :: last := by
  induction A with
  | nil => exact absurd rfl hA
  | cons a A ih =>
    cases A with
    | nil => rfl
    | cons b B =>
      show joinSegs (a :: ((b :: B) ++ [last])) = _
      rw [show joinSegs (a :: ((b :: B) ++ [last])) =
        a ++ '/' :: joinSegs ((b :: B) ++ [last]) from rfl, ih (by simp)]
      show _ = (a ++ '/' :: joinSegs (b :: B)) ++ '/' :: last
      simp

theorem slashTerm_eq (A : List (List Char)) (hA : A ≠ []) :
    slashTerm A = joinSegs A ++ ['/'] := by
  induction A with
  | nil => exact absurd rfl hA
  | cons a A ih =>
    cases A with
    | nil => rfl
    | cons b B =>
      show a ++ '/' :: slashTerm (b :: B) = _
      rw [ih (by simp)]
      show _ = (a ++ '/' :: joinSegs (b :: B)) ++ ['/']
      simp

theorem segSlash_pref (a : List Char) : ∀ b x y : List Char, '/' ∉ a →
    '/' ∉ b → ((a ++ '/' :: x) <+: (b ++ '/' :: y) ↔ a = b ∧ x <+: y) := by
  induction a with
  | nil =>
    intro b x y _ hb
    cases b with
    | nil => simp [List.cons_prefix_cons]
    | cons d b2 =>
      have hd : d ≠ '/' := fun h => hb (h ▸ List.mem_cons_self _ _)
      constructor
      · intro hpre
        rw [List.nil_append, List.cons_append] at hpre
        exact absurd (List.cons_prefix_cons.mp hpre).1.symm hd
      · rintro ⟨h, -⟩
        exact List.noConfusion h
  | cons c a2 ih =>
    intro b x y ha hb
    have hc : c ≠ '/' := fun h => ha (h ▸ List.mem_cons_self _ _)
    have ha2 : '/' ∉ a2 := fun h => ha (List.mem_cons_of_mem _ h)
    cases b with
    | nil =>
      constructor
      · intro hpre
        rw [List.nil_append, List.cons_append] at hpre
        exact absurd (List.cons_prefix_cons.mp hpre).1 hc
      · rintro ⟨h, -⟩
        exact List.noConfusion h
    | cons d b2 =>
      have hb2 : '/' ∉ b2 := fun h => hb (List.mem_cons_of_mem _ h)
      rw [List.cons_append, List.cons_append, List.cons_prefix_cons,
        ih b2 x y ha2 hb2]
      simp [List.cons.injEq, and_assoc]

theorem slashTerm_pref (A : List (List Char)) : ∀ B : List (List Char),
    (∀ s ∈ A, '/' ∉ s) → (∀ s ∈ B, '/' ∉ s) →
    (slashTerm A <+: slashTerm B ↔ A <+: B) := by
  induction A with
  | nil =>
    intro B _ _
    simp [slashTerm]
  | cons a A ih =>
    intro B hA hB
    cases B with
    | nil =>
      simp only [slashTerm]
      constructor
      · intro h
        have h2 := List.prefix_nil.mp h
        simp at h2
      · intro h
        have h2 := List.prefix_nil.mp h
        exact List.noConfusion h2
    | cons b B2 =>
      simp only [slashTerm]
      rw [segSlash_pref a b _ _ (hA a (List.mem_cons_self _ _))
          (hB b (List.mem_cons_self _ _)),
        ih B2 (fun s hs => hA s (List.mem_cons_of_mem _ hs))
          (fun s hs => hB s (List.mem_cons_of_mem _ hs)),
        List.cons_prefix_cons]

theorem takeWhile_noslash (rest : List Char) : ∀ c : List Char, '/' ∉ c →
    (c ++ '/' :: rest).takeWhile (fun ch => ch ≠ '/') = c := by
  intro c
  induction c with
  | nil =>
    intro _
    simp [List.takeWhile_cons]
  | cons d c2 ih =>
    intro hc
    have hd : d ≠ '/' := fun h => hc (h ▸ List.mem_cons_self _ _)
    have hc2 : '/' ∉ c2 := fun h => hc (List.mem_cons_of_mem _ h)
    show List.takeWhile (fun ch => decide (ch ≠ '/'))
      (d :: (c2 ++ '/' :: rest)) = d :: c2
    rw [List.takeWhile_cons_of_pos (by simp [hd]), ih hc2]

theorem firstSeg_seg (c rest : List Char) (hc : '/' ∉ c) :
    firstSeg (String.mk (c ++ '/' :: rest)) = String.mk c := by
  simp only [firstSeg]
  exact congrArg String.mk (takeWhile_noslash rest c hc)

theorem goDir_chars (w : String) (x last : List Char) (hlast : '/' ∉ last)
    (hw : w.toList = x ++ ['/'] ++ last) :
    goDir w = goClean (String.mk (x ++ ['/'])) := by
  simp only [goDir]
  refine congrArg (fun l => goClean (String.mk l)) ?_
  rw [hw]
  have h1 : (x ++ ['/'] ++ last).reverse =
      last.reverse ++ ('/' :: x.reverse) := by
    simp
  rw [h1]
  have h2 : last.reverse.dropWhile (fun c => c ≠ '/') = [] := by
    rw [List.dropWhile_eq_nil_iff]
    intro a ha
    have ham : a ∈ last := List.mem_reverse.mp ha
    simp
    exact fun h => hlast (h ▸ ham)
  rw [List.dropWhile_append, h2]
  simp [List.dropWhile_cons]

theorem goDir_noslash (w : String) (hns : '/' ∉ w.toList) : goDir w = "." := by
  simp only [goDir]
  have h2 : w.toList.reverse.dropWhile (fun c => c ≠ '/') = [] := by
    rw [List.dropWhile_eq_nil_iff]
    intro a ha
    have ham : a ∈ w.toList := List.mem_reverse.mp ha
    simp
    exact fun h => hns (h ▸ ham)
  rw [h2]
  decide

theorem normal_dropLast (R : Bool) (A : List (List Char)) (last : List Char)
    (hn : NormalSegs R (A ++ [last])) : NormalSegs R A := by
  obtain ⟨k, rest, heq, hnr, hk⟩ := hn
  rcases List.eq_nil_or_concat rest with hrest | ⟨rs, rl, hrest⟩
  · subst hrest
    rw [List.append_nil] at heq
    have hklen : k = A.length + 1 := by
      have h2 := congrArg List.length heq
      simp at h2
      omega
    have hAeq : A = List.replicate A.length ['.', '.'] := by
      have h2 : A ++ [last] =
          List.replicate A.length ['.', '.'] ++ [['.', '.']] := by
        rw [heq, hklen, List.replicate_succ']
      have h3 := congrArg List.dropLast h2
      rw [List.dropLast_concat, List.dropLast_concat] at h3
      exact h3
    refine ⟨A.length, [], by rw [List.append_nil]; exact hAeq, by simp, ?_⟩
    intro hR
    have hz := hk hR
    omega
  · subst hrest
    simp only [List.concat_eq_append] at heq hnr
    have h2 := congrArg List.dropLast heq
    rw [List.dropLast_concat, ← List.append_assoc, List.dropLast_concat] at h2
    exact ⟨k, rs, h2, fun hm => hnr (List.mem_append_left _ hm), hk⟩

theorem renderSegs_ne_triv (R : Bool) (a : List Char) (A2 : List (List Char))
    (hwf : ∀ t ∈ a :: A2, SegWF t ∧ t ≠ ['.']) :
    renderSegs R (a :: A2) ≠ "" ∧ renderSegs R (a :: A2) ≠ "." := by
  have hawf := hwf a (List.mem_cons_self _ _)
  cases R with
  | true =>
    have h2 : renderSegs true (a :: A2) =
        String.mk ('/' :: joinSegs (a :: A2)) := rfl
    refine ⟨fun h => ?_, fun h => ?_⟩
    · rw [h2] at h
      have h3 := congrArg String.data h
      simp at h3
    · rw [h2] at h
      have h3 := congrArg String.data h
      simp at h3
  | false =>
    have h2 : renderSegs false (a :: A2) =
        String.mk (joinSegs (a :: A2)) := by
      simp [renderSegs]
    refine ⟨fun h => ?_, fun h => ?_⟩
    · rw [h2] at h
      have h3 : joinSegs (a :: A2) = [] := by
        have h4 := congrArg String.data h
        simpa using h4
      have hh := congrArg List.head? h3
      rw [head_joinSegs a A2 hawf.1.1] at hh
      cases ha : a with
      | nil => exact hawf.1.1 ha
      | cons c cs =>
        rw [ha] at hh
        simp at hh
    · rw [h2] at h
      have h3 : joinSegs (a :: A2) = ['.'] := by
        have h4 := congrArg String.data h
        simpa using h4
      cases A2 with
      | nil => exact hawf.2 h3
      | cons b B =>
        rw [show joinSegs (a :: b :: B) =
          a ++ '/' :: joinSegs (b :: B) from rfl] at h3
        cases ha : a with
        | nil => exact hawf.1.1 ha
        | cons c cs =>
          rw [ha, List.cons_append] at h3
          injection h3 with h5 h6
          simp at h6

theorem render_chars (R : Bool) (A : List (List Char)) (hA : A ≠ []) :
    (renderSegs R A).toList = (if R then ['/'] else []) ++ joinSegs A := by
  cases R with
  | true => rfl
  | false => simp [renderSegs, hA]

theorem goClean_render_slash (R : Bool) (A : List (List Char)) (hA : A ≠ [])
    (hwfA : ∀ t ∈ A, SegWF t ∧ t ≠ ['.']) (hnA : NormalSegs R A) :
    goClean (renderSegs R A ++ "/") = renderSegs R A := by
  have hb0 : renderSegs R A ≠ "" := by
    rcases A with _ | ⟨a, A2⟩
    · exact absurd rfl hA
    · exact (renderSegs_ne_triv R a A2 hwfA).1
  have hroot : isRooted (renderSegs R A ++ "/") = R := by
    rw [isRooted_str_append _ "/" hb0,
      isRooted_render R A (fun t ht => (hwfA t ht).1)]
  have hseg : cleanSegsOf (renderSegs R A ++ "/") = A := by
    simp only [cleanSegsOf]
    rw [hroot, pathSegs_append_slash, pathSegs_render R A hwfA]
    exact cleanLoop_id R A hnA
  simp only [goClean]
  rw [hroot, hseg]

theorem goDir_multi (w : String) (hw : goClean w = w) (A : List (List Char))
    (last : List Char) (hsplit : pathSegs w = A ++ [last]) (hA : A ≠ []) :
    goDir w = renderSegs (isRooted w) A := by
  have hwf : ∀ t ∈ A ++ [last], SegWF t ∧ t ≠ ['.'] := by
    rw [← hsplit]
    exact pathSegs_wf w
  have hwfA : ∀ t ∈ A, SegWF t ∧ t ≠ ['.'] :=
    fun t ht => hwf t (List.mem_append_left _ ht)
  have hwfl : SegWF last ∧ last ≠ ['.'] :=
    hwf last (List.mem_append_right _ (List.mem_singleton.mpr rfl))
  have hnorm : NormalSegs (isRooted w) (A ++ [last]) := by
    rw [← hsplit]
    exact clean_normal w hw
  have hnA : NormalSegs (isRooted w) A := normal_dropLast _ _ _ hnorm
  have hr := clean_eq_render w hw
  rw [hsplit] at hr
  have hwchars : w.toList =
      ((if isRooted w then ['/'] else []) ++ joinSegs A) ++ ['/'] ++ last := by
    conv_lhs => rw [hr]
    rw [render_chars _ _ (by simp), joinSegs_concat A last hA]
    simp
  have hgd := goDir_chars w ((if isRooted w then ['/'] else []) ++ joinSegs A)
    last hwfl.1.2 hwchars
  have hmid : String.mk (((if isRooted w then ['/'] else []) ++ joinSegs A)
      ++ ['/']) = renderSegs (isRooted w) A ++ "/" := by
    have hdata : (renderSegs (isRooted w) A ++ "/").data =
        ((if isRooted w then ['/'] else []) ++ joinSegs A) ++ ['/'] := by
      rw [String.data_append]
      rw [show (renderSegs (isRooted w) A).data =
        (renderSegs (isRooted w) A).toList from rfl]
      rw [render_chars _ _ hA]
    exact (congrArg String.mk hdata).symm
  rw [hgd, hmid]
  exact goClean_render_slash (isRooted w) A hA hwfA hnA

theorem toList_append_slash (s : String) :
    (s ++ "/").toList = s.toList ++ ['/'] := by
  simp [String.toList, String.data_append]

theorem append_slash_cancel (a b : String) (h : a ++ "/" = b ++ "/") :
    a = b := by
  have h2 := congrArg String.data h
  rw [String.data_append, String.data_append] at h2
  exact congrArg String.mk (List.append_cancel_right h2)

theorem specDirChild_short (p w : String)
    (hlen : (pathSegs w).length ≤ (pathSegs p).length + 1) :
    specDirChild p w = none := by
  simp only [specDirChild]
  rw [if_neg]
  rintro ⟨-, h2⟩
  omega

theorem specDirChild_multi (p w : String) (c : List Char)
    (C2 : List (List Char)) (last : List Char)
    (hsplit : pathSegs w = pathSegs p ++ (c :: C2) ++ [last]) :
    specDirChild p w = some (String.mk c) := by
  simp only [specDirChild, hsplit]
  rw [if_pos]
  · rw [List.append_assoc, List.drop_left]
    rfl
  · constructor
    · rw [List.isPrefixOf_iff_prefix]
      exact ⟨(c :: C2) ++ [last], by rw [List.append_assoc]⟩
    · simp

theorem specDirChild_some (p w : String) (n : String)
    (hsd : specDirChild p w = some n) :
    ∃ c C2, (pathSegs w).dropLast = pathSegs p ++ c :: C2 ∧
      n = String.mk c := by
  simp only [specDirChild] at hsd
  split at hsd
  · rename_i hcond
    obtain ⟨hpre, hlen⟩ := hcond
    obtain ⟨D, hD⟩ := List.isPrefixOf_iff_prefix.mp hpre
    rcases List.eq_nil_or_concat D with hDn | ⟨D2, dl, hD2⟩
    · subst hDn
      rw [List.append_nil] at hD
      rw [← hD] at hlen
      omega
    · subst hD2
      rw [List.concat_eq_append] at hD
      rcases D2 with _ | ⟨d0, D3⟩
      · rw [List.nil_append] at hD
        rw [← hD] at hlen
        simp at hlen
      · refine ⟨d0, D3, ?_, ?_⟩
        · rw [← hD, ← List.append_assoc, List.dropLast_concat]
        · rw [← hD, List.drop_left] at hsd
          simp at hsd
          exact hsd.symm
  · exact absurd hsd (by simp)

theorem readDirEntry_spec (p w : String) (hp : goClean p = p)
    (hP : pathSegs p ≠ []) (hw : goClean w = w) (hW : pathSegs w ≠ [])
    (hR : isRooted w = isRooted p)
    (hcol : hasPref (goDir w ++ "/") p = true →
      hasPref (goDir w ++ "/") (p ++ "/") = true ∨ goDir w = p) :
    readDirEntry p w =
      (specDirChild p w).bind (fun n => if n = p then none else some n) := by
  have hwfP : ∀ t ∈ pathSegs p, SegWF t ∧ t ≠ ['.'] := pathSegs_wf p
  have hsfP : ∀ s ∈ pathSegs p, '/' ∉ s := fun s hs => (hwfP s hs).1.2
  rcases List.eq_nil_or_concat (pathSegs w) with hWnil | ⟨A, last, hsplit⟩
  · exact absurd hWnil hW
  rw [List.concat_eq_append] at hsplit
  have hwf : ∀ t ∈ A ++ [last], SegWF t ∧ t ≠ ['.'] := by
    rw [← hsplit]
    exact pathSegs_wf w
  have hwfl : SegWF last ∧ last ≠ ['.'] :=
    hwf last (List.mem_append_right _ (List.mem_singleton.mpr rfl))
  cases A with
  | nil =>
    rw [List.nil_append] at hsplit
    have hspec : specDirChild p w = none := by
      apply specDirChild_short
      rw [hsplit]
      simp
    rw [hspec]
    cases hRw : isRooted w with
    | false =>
      have hgd : goDir w = "." := by
        apply goDir_noslash
        have hr := clean_eq_render w hw
        rw [hsplit, hRw] at hr
        rw [hr, render_chars false [last] (by simp)]
        exact hwfl.1.2
      have hdot : ("." : String) ++ "/" = "./" := by decide
      simp [readDirEntry, hgd, hdot]
    | true =>
      have hgd : goDir w = "/" := by
        have hr := clean_eq_render w hw
        rw [hsplit, hRw] at hr
        have h2 := goDir_chars w [] last hwfl.1.2 (by rw [hr]; rfl)
        rw [h2]
        decide
      have hRp : isRooted p = true := by rw [← hR, hRw]
      have hpp : hasPref ("/" ++ "/") p = false := by
        cases hpf : hasPref ("/" ++ "/") p with
        | false => rfl
        | true =>
          exfalso
          have hpre : p.toList <+: ("/" ++ "/").toList :=
            List.isPrefixOf_iff_prefix.mp hpf
          have hrp := clean_eq_render p hp
          rw [hRp] at hrp
          rcases hPdec : pathSegs p with _ | ⟨p1, P2⟩
          · exact hP hPdec
          have hp1wf := hwfP p1 (by rw [hPdec]; exact List.mem_cons_self _ _)
          rw [hrp, hPdec] at hpre
          rw [show (renderSegs true (p1 :: P2)).toList =
            '/' :: joinSegs (p1 :: P2) from rfl] at hpre
          rw [show ("/" ++ "/" : String).toList = ['/', '/'] from by decide]
            at hpre
          have hj : joinSegs (p1 :: P2) <+: ['/'] :=
            (List.cons_prefix_cons.mp hpre).2
          have hh : (joinSegs (p1 :: P2)).head? = p1.head? :=
            head_joinSegs _ _ hp1wf.1.1
          obtain ⟨t, ht⟩ := hj
          cases hjl : joinSegs (p1 :: P2) with
          | nil =>
            rw [hjl] at hh
            cases hp1 : p1 with
            | nil => exact hp1wf.1.1 hp1
            | cons c cs =>
              rw [hp1] at hh
              simp at hh
          | cons d ds =>
            rw [hjl] at ht hh
            have hd : d = '/' := by
              have h3 := congrArg List.head? ht
              simpa using h3
            cases hp1 : p1 with
            | nil => exact hp1wf.1.1 hp1
            | cons c cs =>
              rw [hp1] at hh
              simp at hh
              refine hp1wf.1.2 ?_
              rw [hp1]
              have hcd : c = '/' := hh.symm.trans hd
              rw [hcd]
              exact List.mem_cons_self _ _
      have hpp2 : hasPref "//" p = false := by
        rw [show ("//" : String) = "/" ++ "/" from by decide]
        exact hpp
      simp [readDirEntry, hgd, hpp, hpp2]
  | cons a1 A2 =>
    have hwfA12 : ∀ t ∈ a1 :: A2, SegWF t ∧ t ≠ ['.'] :=
      fun t ht => hwf t (List.mem_append_left _ ht)
    have hsfA : ∀ s ∈ a1 :: A2, '/' ∉ s := fun s hs => (hwfA12 s hs).1.2
    have hgd : goDir w = renderSegs (isRooted p) (a1 :: A2) := by
      have h2 := goDir_multi w hw (a1 :: A2) last hsplit (by simp)
      rw [hR] at h2
      exact h2
    have hfdchars : (goDir w ++ "/").toList =
        (if isRooted p then ['/'] else []) ++ slashTerm (a1 :: A2) := by
      rw [toList_append_slash, hgd, render_chars _ _ (by simp),
        List.append_assoc, ← slashTerm_eq _ (by simp)]
    have hpchars : p.toList =
        (if isRooted p then ['/'] else []) ++ joinSegs (pathSegs p) := by
      conv_lhs => rw [clean_eq_render p hp]
      exact render_chars _ _ hP
    have hpslash : (p ++ "/").toList =
        (if isRooted p then ['/'] else []) ++ slashTerm (pathSegs p) := by
      rw [toList_append_slash, hpchars, List.append_assoc,
        ← slashTerm_eq _ hP]
    cases hpref : hasPref (goDir w ++ "/") p with
    | false =>
      have hspec : specDirChild p w = none := by
        cases hsd : specDirChild p w with
        | none => rfl
        | some n =>
          exfalso
          obtain ⟨c, C2, hdec, -⟩ := specDirChild_some p w n hsd
          rw [hsplit, List.dropLast_concat] at hdec
          have hstp : slashTerm (pathSegs p) <+: slashTerm (a1 :: A2) := by
            rw [hdec, slashTerm_append]
            exact ⟨slashTerm (c :: C2), rfl⟩
          have hjp : p.toList <+: (goDir w ++ "/").toList := by
            rw [hfdchars, hpchars]
            refine (List.prefix_append_right_inj _).mpr ?_
            refine List.IsPrefix.trans ?_ hstp
            exact ⟨['/'], (slashTerm_eq _ hP).symm⟩
          have htrue : hasPref (goDir w ++ "/") p = true := by
            simp only [hasPref]
            exact List.isPrefixOf_iff_prefix.mpr hjp
          rw [hpref] at htrue
          exact Bool.noConfusion htrue
      rw [hspec]
      simp [readDirEntry, hpref]
    | true =>
      have hPA : pathSegs p <+: (a1 :: A2) := by
        rcases hcol hpref with h2 | h2
        · have hpre2 : (p ++ "/").toList <+: (goDir w ++ "/").toList :=
            List.isPrefixOf_iff_prefix.mp h2
          rw [hfdchars, hpslash] at hpre2
          have h3 := (List.prefix_append_right_inj _).mp hpre2
          exact (slashTerm_pref _ _ hsfP hsfA).mp h3
        · rw [hgd] at h2
          have h3 : pathSegs p = a1 :: A2 := by
            rw [← h2, pathSegs_render _ _ hwfA12]
          rw [h3]
      obtain ⟨C, hC⟩ := hPA
      cases C with
      | nil =>
        rw [List.append_nil] at hC
        have hgdp : goDir w = p := by
          rw [hgd, ← hC]
          exact (clean_eq_render p hp).symm
        have hfne1 : goDir w ++ "/" ≠ "/" := by
          intro h
          have h2 : goDir w = "" :=
            append_slash_cancel _ _ (h.trans (by decide))
          rw [hgdp] at h2
          exact hP (by rw [h2]; rfl)
        have hfne2 : goDir w ++ "/" ≠ "./" := by
          intro h
          have h2 : goDir w = "." :=
            append_slash_cancel _ _ (h.trans (by decide))
          rw [hgdp] at h2
          exact hP (by rw [h2]; rfl)
        have htrim : trimPref (goDir w ++ "/") (p ++ "/") = "" := by
          rw [hgdp]
          simp only [trimPref]
          rw [if_pos]
          · exact congrArg String.mk (by simp)
          · show hasPref (p ++ "/") (p ++ "/") = true
            simp only [hasPref]
            exact List.isPrefixOf_iff_prefix.mpr (List.prefix_refl _)
        have hspec : specDirChild p w = none := by
          apply specDirChild_short
          rw [hsplit, ← hC]
          simp
        rw [hspec]
        simp only [readDirEntry]
        rw [if_pos ⟨hfne1, hfne2, hpref⟩, htrim]
        rw [show firstSeg "" = "" from rfl]
        rw [if_neg (by simp)]
        rfl
      | cons c C2 =>
        have hdecomp : (a1 :: A2) = pathSegs p ++ c :: C2 := hC.symm
        have hcmem : c ∈ a1 :: A2 := by
          rw [hdecomp]
          exact List.mem_append_right _ (List.mem_cons_self _ _)
        have hcwf := hwfA12 c hcmem
        have hne := renderSegs_ne_triv (isRooted p) a1 A2 hwfA12
        have hfne1 : goDir w ++ "/" ≠ "/" := by
          intro h
          have h2 : goDir w = "" :=
            append_slash_cancel _ _ (h.trans (by decide))
          rw [hgd] at h2
          exact hne.1 h2
        have hfne2 : goDir w ++ "/" ≠ "./" := by
          intro h
          have h2 : goDir w = "." :=
            append_slash_cancel _ _ (h.trans (by decide))
          rw [hgd] at h2
          exact hne.2 h2
        have hfdsplit : (goDir w ++ "/").toList =
            (p ++ "/").toList ++ slashTerm (c :: C2) := by
          rw [hfdchars, hpslash, hdecomp, slashTerm_append,
            List.append_assoc]
        have hpref2 : hasPref (goDir w ++ "/") (p ++ "/") = true := by
          simp only [hasPref]
          rw [List.isPrefixOf_iff_prefix]
          exact ⟨slashTerm (c :: C2), hfdsplit.symm⟩
        have htrim : trimPref (goDir w ++ "/") (p ++ "/") =
            String.mk (slashTerm (c :: C2)) := by
          simp only [trimPref, hpref2]
          rw [if_pos trivial]
          refine congrArg String.mk ?_
          rw [hfdsplit, List.drop_left]
        have hdir : firstSeg (String.mk (slashTerm (c :: C2))) =
            String.mk c := by
          show firstSeg (String.mk (c ++ '/' :: slashTerm C2)) = String.mk c
          exact firstSeg_seg c _ hcwf.1.2
        have hdirne : String.mk c ≠ "" := by
          intro h
          exact hcwf.1.1 (String.ext_iff.mp h)
        have hspec : specDirChild p w = some (String.mk c) := by
          apply specDirChild_multi p w c C2 last
          rw [hsplit, hdecomp, List.append_assoc]
        rw [hspec]
        simp only [readDirEntry]
        rw [if_pos ⟨hfne1, hfne2, hpref⟩, htrim, hdir]
        by_cases hcp : String.mk c = p
        · rw [if_neg (by simp [hcp])]
          simp [hcp]
        · rw [if_pos ⟨hdirne, hcp⟩]
          simp [hcp]

/-- C9 counterexample: the claim that ReadDir returns exactly the
deduplicated set of immediate child directory names derived from the
written paths fails in both directions. A child directory named like the
single-segment query itself is dropped (query "a" over stored path
"a/a/f" returns the empty list although "a" has the child directory "a"),
and a sibling directory whose name merely extends the query string is
returned (query "dir1" over stored path "dir10/x/f" returns ["dir10"]
although "dir10" does not lie below "dir1"): the code buckets by string
prefix, not by path segments. -/
theorem c9_counterexample :
    memReadDir ⟨"", [("a/a/f", ⟨[1], 0⟩)]⟩ "a" = [] ∧
    specReadDir ⟨"", [("a/a/f", ⟨[1], 0⟩)]⟩ "a" = ["a"] ∧
    memReadDir ⟨"", [("dir10/x/f", ⟨[1], 0⟩)]⟩ "dir1" = ["dir10"] ∧
    specReadDir ⟨"", [("dir10/x/f", ⟨[1], 0⟩)]⟩ "dir1" = [] := by
  refine ⟨rfl, rfl, rfl, rfl⟩

/-- C9 amended: for a clean query with at least one segment and stored
paths that are clean, non-degenerate, of the same rootedness as the query,
and whose directory parts only ever extend the query string at a segment
boundary, ReadDir returns the sorted deduplicated list of the names the
spec derivation produces, except that a derived name equal to the whole
query string is additionally dropped; the result is always sorted and
duplicate-free. -/
theorem c9_amended_readdir_characterization (ms : MemStore) (p : String)
    (hp : goClean p = p) (hP : pathSegs p ≠ [])
    (hkeys : ∀ kv ∈ ms.store, goClean kv.1 = kv.1 ∧ pathSegs kv.1 ≠ [] ∧
      isRooted kv.1 = isRooted p ∧
      (hasPref (goDir kv.1 ++ "/") p = true →
        hasPref (goDir kv.1 ++ "/") (p ++ "/") = true ∨ goDir kv.1 = p)) :
    memReadDir ms p = sortDedup (ms.store.filterMap
      (fun kv => (specDirChild p kv.1).bind
        (fun n => if n = p then none else some n))) ∧
    (memReadDir ms p).Sorted (fun a b => a ≤ b) ∧
    (memReadDir ms p).Nodup := by
  have hp0 : p ≠ "" := by
    intro h
    rw [h] at hP
    exact hP (by decide)
  have hpath1 : (if p = "" then "" else goClean p) = p := by
    rw [if_neg hp0, hp]
  refine ⟨?_, ?_, ?_⟩
  · simp only [memReadDir, hpath1]
    congr 1
    apply List.filterMap_congr
    intro kv hkv
    obtain ⟨h1, h2, h3, h4⟩ := hkeys kv hkv
    exact readDirEntry_spec p kv.1 hp hP h1 h2 h3 h4
  · simp only [memReadDir, sortDedup]
    exact List.sorted_insertionSort _ _
  · simp only [memReadDir, sortDedup]
    exact ((List.perm_insertionSort _ _).nodup_iff).mpr (List.nodup_dedup _)

/-- Witness for the amended C9: the query "docs" over two stored files in
different subdirectories satisfies the alignment guards; ReadDir returns
the spec-derived names, sorted and duplicate-free. -/
theorem c9_witness :
    memReadDir ⟨"", [("docs/readme/f", ⟨[1], 0⟩), ("docs/guide/g", ⟨[2], 0⟩)]⟩
        "docs" =
      sortDedup ((⟨"", [("docs/readme/f", ⟨[1], 0⟩),
          ("docs/guide/g", ⟨[2], 0⟩)]⟩ : MemStore).store.filterMap
        (fun kv => (specDirChild "docs" kv.1).bind
          (fun n => if n = "docs" then none else some n))) ∧
    (memReadDir ⟨"", [("docs/readme/f", ⟨[1], 0⟩), ("docs/guide/g", ⟨[2], 0⟩)]⟩
        "docs").Sorted (fun a b => a ≤ b) ∧
    (memReadDir ⟨"", [("docs/readme/f", ⟨[1], 0⟩), ("docs/guide/g", ⟨[2], 0⟩)]⟩
        "docs").Nodup :=
  c9_amended_readdir_characterization
    ⟨"", [("docs/readme/f", ⟨[1], 0⟩), ("docs/guide/g", ⟨[2], 0⟩)]⟩ "docs"
    (by decide) (by decide) (by decide)

end RemoteSync
